import Mathlib

/-!
Verification development for the AutomationZ Log Cleanup Scheduler core
(`src/app/main.py`).  The embedding covers:

* the glob-based pattern matcher `matches_any` (source lines 72-80),
* the local filesystem cleanup walker `local_cleanup_folder` (lines 227-274),
* the remote FTP cleanup walker `ftp_cleanup_folder` (lines 276-336),
* the scheduler due-job evaluation `App._run_due_jobs` (lines 560-584).

Directory trees are modelled as a mutual inductive (files plus a forest of
named subdirectories).  Each cleanup run is a pure function from an initial
tree and per-path failure oracles to a result tree, counters and a trace of
backend operations and log events, mirroring the Python control flow
statement by statement.
-/

namespace LogCleanup

/-! ## Pattern matcher (`matches_any`, fnmatch semantics) -/

/-- Character-set membership for a glob bracket expression, following the
regex character-class semantics `fnmatch.translate` produces: `a-b` ranges,
other characters literal (a leading or trailing `-` is literal). -/
def inBracket (c : Char) : List Char → Bool
  | a :: '-' :: b :: rest =>
      (decide (a.toNat ≤ c.toNat) && decide (c.toNat ≤ b.toNat)) || inBracket c rest
  | a :: rest => (c == a) || inBracket c rest
  | [] => false

/-- Scan up to the next `]`, returning the scanned characters and the rest.
`none` when no closing bracket exists. -/
def bracketScan : List Char → Option (List Char × List Char)
  | [] => none
  | c :: rest =>
      if c = ']' then some ([], rest)
      else
        match bracketScan rest with
        | some pr => some (c :: pr.1, pr.2)
        | none => none

/-- After the optional `!`, a `]` directly after the opening (the scan start)
is a literal member, as in `fnmatch.translate`. -/
def parseBracketCore (neg : Bool) : List Char → Option (Bool × List Char × List Char)
  | [] => none
  | c :: rest =>
      if c = ']' then (bracketScan rest).map (fun pr => (neg, ']' :: pr.1, pr.2))
      else (bracketScan (c :: rest)).map (fun pr => (neg, pr.1, pr.2))

/-- Parse a bracket expression (the characters after `[`): negation flag,
member characters, remaining pattern.  A leading `!` negates; `none` when
there is no closing `]` (then `[` is treated as a literal character). -/
def parseBracket : List Char → Option (Bool × List Char × List Char)
  | [] => none
  | c :: rest =>
      if c = '!' then parseBracketCore true rest else parseBracketCore false (c :: rest)

/-- Anchored shell-glob matching of a pattern against a name with explicit
recursion fuel (each recursive call shrinks pattern + name, so
`p.length + s.length + 1` fuel is never exhausted; see `glob`): `*` matches
any (possibly empty) sequence, `?` any single character, `[...]` a character
set, every other character itself.  The whole name must be consumed (the
regex `fnmatch.translate` builds ends in a whole-string anchor) and
comparison is by code point (case-sensitive). -/
def globFuel : Nat → List Char → List Char → Bool
  | 0, _, _ => false
  | _ + 1, [], s => s.isEmpty
  | fuel + 1, '*' :: ps, s =>
      globFuel fuel ps s ||
        (match s with
         | [] => false
         | _ :: s2 => globFuel fuel ('*' :: ps) s2)
  | fuel + 1, '?' :: ps, s =>
      (match s with
       | [] => false
       | _ :: s2 => globFuel fuel ps s2)
  | fuel + 1, '[' :: ps, s =>
      (match parseBracket ps with
       | some pr =>
          (match s with
           | [] => false
           | c :: s2 => (inBracket c pr.2.1 != pr.1) && globFuel fuel pr.2.2 s2)
       | none =>
          (match s with
           | [] => false
           | c :: s2 => (c == '[') && globFuel fuel ps s2))
  | fuel + 1, c :: ps, s =>
      (match s with
       | [] => false
       | c2 :: s2 => (c == c2) && globFuel fuel ps s2)

/-- Anchored, case-sensitive shell-glob match of a whole name. -/
def glob (p s : List Char) : Bool :=
  globFuel (p.length + s.length + 1) p s

/-- Python's `str.strip()`: drop leading and trailing whitespace. -/
def pyStrip (l : List Char) : List Char :=
  ((l.dropWhile Char.isWhitespace).reverse.dropWhile Char.isWhitespace).reverse

/-- `matches_any` from the source: each pattern is stripped of surrounding
whitespace, empty (post-strip) patterns are skipped, and the name matches
when any remaining pattern glob-matches it (source lines 72-80). -/
def matches_any (name : String) (patterns : List String) : Bool :=
  patterns.any fun pat =>
    let p := pyStrip pat.data
    (!p.isEmpty) && glob p name.data

example : matches_any "b.log" ["*.json", "*.log"] = true := by decide
example : matches_any "a.json" ["*.json"] = true := by decide
example : matches_any "a.json" [""] = false := by decide
example : matches_any "xaby" ["a?"] = false := by decide
example : matches_any "ab" ["a?"] = true := by decide
example : matches_any "AB" ["ab"] = false := by decide
example : matches_any "a.cfg" ["  *.cfg  "] = true := by decide
example : matches_any "cat" ["c[a-z]t"] = true := by decide
example : matches_any "cAt" ["c[a-z]t"] = false := by decide
example : matches_any "c]t" ["c[]]t"] = true := by decide
example : matches_any "cat" ["c[!a]t"] = false := by decide
example : matches_any "cbt" ["c[!a]t"] = true := by decide
example : matches_any "config" ["config", "settings"] = true := by decide
example : matches_any "xconfig" ["config"] = false := by decide

/-! ## Directory trees, backend operations and traces -/

/-- A path is the list of name components below the cleanup root. -/
abbrev Path := List String

mutual
/-- A directory: its files (by basename) and named subdirectories. -/
inductive FsTree : Type where
  | node (files : List String) (dirs : FsForest) : FsTree
  deriving DecidableEq
/-- The ordered children of a directory. -/
inductive FsForest : Type where
  | nil : FsForest
  | cons (name : String) (child : FsTree) (rest : FsForest) : FsForest
  deriving DecidableEq
end

/-- Zero children: what `not any(dp.iterdir())` observes locally. -/
def FsTree.isEmptyDir : FsTree → Bool
  | .node [] .nil => true
  | _ => false

def FsForest.dirEntries : FsForest → List (String × Bool)
  | .nil => []
  | .cons n _ rest => (n, true) :: rest.dirEntries

/-- The `(name, is_dir)` listing `FTPClient.list_dir` returns for a
directory in the current state. -/
def FsTree.listing : FsTree → List (String × Bool)
  | .node files dirs => files.map (fun f => (f, false)) ++ dirs.dirEntries

mutual
/-- The subdirectory at a path (the first child with each name, as a real
filesystem's unique names make unambiguous). -/
def FsTree.dirAt : Path → FsTree → Option FsTree
  | [], t => some t
  | d :: rest, .node _ dirs => FsForest.findDir d rest dirs
def FsForest.findDir (d : String) (rest : Path) : FsForest → Option FsTree
  | .nil => none
  | .cons n t f => if n = d then FsTree.dirAt rest t else FsForest.findDir d rest f
end

/-- Outcome of one `unlink(missing_ok=True)` / FTP `DELE` attempt:
succeeded, target already gone (local unlink still returns successfully),
or raised. -/
inductive FileOutcome : Type where
  | ok
  | missing
  | err
  deriving DecidableEq

/-- One backend operation or log line, in program order.  `listOk` carries
the listing the server returned; `probe` is the local emptiness check
(`dp.exists() and dp.is_dir() and not any(dp.iterdir())`) with its result. -/
inductive Ev : Type where
  | listOk (p : Path) (items : List (String × Bool))
  | listFail (p : Path)
  | probe (p : Path) (isEmptyRes : Bool)
  | delOk (p : Path)
  | delErr (p : Path)
  | rmdirOk (p : Path)
  | rmdirErr (p : Path)
  | infoDryDelFile (p : Path)
  | infoDelFile (p : Path)
  | infoDryRmDir (p : Path)
  | infoRmDir (p : Path)
  | warnDelFile (p : Path)
  | warnListFail (p : Path)
  deriving DecidableEq

def Ev.path : Ev → Path
  | .listOk p _ => p
  | .listFail p => p
  | .probe p _ => p
  | .delOk p => p
  | .delErr p => p
  | .rmdirOk p => p
  | .rmdirErr p => p
  | .infoDryDelFile p => p
  | .infoDelFile p => p
  | .infoDryRmDir p => p
  | .infoRmDir p => p
  | .warnDelFile p => p
  | .warnListFail p => p

/-- A mutating backend call (file deletion or directory removal attempt). -/
def Ev.isMutationCall : Ev → Bool
  | .delOk _ => true
  | .delErr _ => true
  | .rmdirOk _ => true
  | .rmdirErr _ => true
  | _ => false

def Ev.isRmdirCall : Ev → Bool
  | .rmdirOk _ => true
  | .rmdirErr _ => true
  | _ => false

def Ev.isListCall : Ev → Bool
  | .listOk _ _ => true
  | .listFail _ => true
  | _ => false

def Ev.isDeleteCall : Ev → Bool
  | .delOk _ => true
  | .delErr _ => true
  | _ => false

def Ev.isWarn : Ev → Bool
  | .warnDelFile _ => true
  | .warnListFail _ => true
  | _ => false

/-! ## Local backend cleanup (`local_cleanup_folder`, lines 227-274) -/

structure FilesOut where
  files : List String
  nf : Nat
  evs : List Ev
  deriving DecidableEq

structure PruneOut where
  forest : FsForest
  nd : Nat
  evs : List Ev
  deriving DecidableEq

structure WalkOut where
  tree : FsTree
  nf : Nat
  nd : Nat
  evs : List Ev
  deriving DecidableEq

structure ForestOut where
  forest : FsForest
  nf : Nat
  nd : Nat
  evs : List Ev
  deriving DecidableEq

/-- The files loop of one `os.walk` yield (lines 243-255): skip excluded
names; in dry-run log and count without touching anything; otherwise call
`unlink(missing_ok=True)` -- success and already-missing both log the
deletion and count, an exception logs a warning and does not count. -/
def localDeleteFiles (exF : List String) (dry : Bool) (uo : Path → FileOutcome)
    (p : Path) : List String → FilesOut
  | [] => ⟨[], 0, []⟩
  | fn :: rest =>
    let r := localDeleteFiles exF dry uo p rest
    if matches_any fn exF then ⟨fn :: r.files, r.nf, r.evs⟩
    else if dry then ⟨fn :: r.files, r.nf + 1, Ev.infoDryDelFile (p ++ [fn]) :: r.evs⟩
    else
      match uo (p ++ [fn]) with
      | .ok =>
          ⟨r.files, r.nf + 1,
            Ev.delOk (p ++ [fn]) :: Ev.infoDelFile (p ++ [fn]) :: r.evs⟩
      | .missing =>
          ⟨r.files, r.nf + 1,
            Ev.delOk (p ++ [fn]) :: Ev.infoDelFile (p ++ [fn]) :: r.evs⟩
      | .err =>
          ⟨fn :: r.files, r.nf,
            Ev.delErr (p ++ [fn]) :: Ev.warnDelFile (p ++ [fn]) :: r.evs⟩

/-- The dirs loop of one `os.walk` yield (lines 257-272): excluded names
are skipped before any check; otherwise the emptiness probe runs, and an
empty directory is counted and (when not dry) removed, with any exception
swallowed by `except Exception: pass` -- no log, no count. -/
def localPruneDirs (exD : List String) (dry : Bool) (ro : Path → Bool)
    (p : Path) : FsForest → PruneOut
  | .nil => ⟨.nil, 0, []⟩
  | .cons dn t rest =>
    let r := localPruneDirs exD dry ro p rest
    if matches_any dn exD then ⟨.cons dn t r.forest, r.nd, r.evs⟩
    else if t.isEmptyDir then
      if dry then
        ⟨.cons dn t r.forest, r.nd + 1,
          Ev.probe (p ++ [dn]) true :: Ev.infoDryRmDir (p ++ [dn]) :: r.evs⟩
      else if ro (p ++ [dn]) then
        ⟨r.forest, r.nd + 1,
          Ev.probe (p ++ [dn]) true :: Ev.rmdirOk (p ++ [dn]) ::
            Ev.infoRmDir (p ++ [dn]) :: r.evs⟩
      else
        ⟨.cons dn t r.forest, r.nd,
          Ev.probe (p ++ [dn]) true :: Ev.rmdirErr (p ++ [dn]) :: r.evs⟩
    else ⟨.cons dn t r.forest, r.nd, Ev.probe (p ++ [dn]) false :: r.evs⟩

mutual
/-- One `os.walk(topdown=False)` traversal from directory `p`: children are
fully processed first (bottom-up yields), then this directory's files are
deleted, then its (already processed) subdirectories are pruned. -/
def localWalkTree (exF exD : List String) (dry : Bool) (uo : Path → FileOutcome)
    (ro : Path → Bool) (p : Path) : FsTree → WalkOut
  | .node files dirs =>
    let rc := localWalkForest exF exD dry uo ro p dirs
    let fr := localDeleteFiles exF dry uo p files
    let pr := localPruneDirs exD dry ro p rc.forest
    ⟨.node fr.files pr.forest, rc.nf + fr.nf, rc.nd + pr.nd,
      rc.evs ++ fr.evs ++ pr.evs⟩
def localWalkForest (exF exD : List String) (dry : Bool) (uo : Path → FileOutcome)
    (ro : Path → Bool) (p : Path) : FsForest → ForestOut
  | .nil => ⟨.nil, 0, 0, []⟩
  | .cons n t rest =>
    let r1 := localWalkTree exF exD dry uo ro (p ++ [n]) t
    let r2 := localWalkForest exF exD dry uo ro p rest
    ⟨.cons n r1.tree r2.forest, r1.nf + r2.nf, r1.nd + r2.nd, r1.evs ++ r2.evs⟩
end

/-- `local_cleanup_folder` (lines 227-274) on an existing root directory:
the full bottom-up walk; the root itself is never a candidate for removal
because only subdirectory entries of walked directories are pruned. -/
def local_cleanup_folder (exF exD : List String) (dry : Bool)
    (uo : Path → FileOutcome) (ro : Path → Bool) (t : FsTree) : WalkOut :=
  localWalkTree exF exD dry uo ro [] t

example :
    (local_cleanup_folder [] [] false (fun _ => .ok) (fun _ => true)
      (.node ["a.log"] (.cons "d" (.node ["b.log"] .nil) .nil))).nf = 2 := by decide

example :
    (local_cleanup_folder [] [] false (fun _ => .ok) (fun _ => true)
      (.node ["a.log"] (.cons "d" (.node ["b.log"] .nil) .nil))).nd = 1 := by decide

example :
    (local_cleanup_folder ["*.json"] [] false (fun _ => .ok) (fun _ => true)
      (.node ["a.json", "b.log"] .nil)).tree = .node ["a.json"] .nil := by decide

/-! ## FTP backend cleanup (`ftp_cleanup_folder`, lines 276-336)

Oracles: `lo` is the outcome of the `list_dir` call opening a directory,
`lo2` of the re-listing before a removal attempt, `fo` of a `DELE`, `rmo`
of an `RMD`. -/

structure FtpOut where
  tree : Option FsTree
  nf : Nat
  nd : Nat
  evs : List Ev
  deriving DecidableEq

/-- The files pass of `walk_dir` (lines 303-318): non-directory entries not
matching `exclude_files` are deleted (or logged in dry-run); a failed
`DELE` logs a warning, does not count, and the loop continues. -/
def ftpDeleteFiles (exF : List String) (dry : Bool) (fo : Path → Bool)
    (p : Path) : List String → FilesOut
  | [] => ⟨[], 0, []⟩
  | fn :: rest =>
    let r := ftpDeleteFiles exF dry fo p rest
    if matches_any fn exF then ⟨fn :: r.files, r.nf, r.evs⟩
    else if dry then ⟨fn :: r.files, r.nf + 1, Ev.infoDryDelFile (p ++ [fn]) :: r.evs⟩
    else if fo (p ++ [fn]) then
      ⟨r.files, r.nf + 1,
        Ev.delOk (p ++ [fn]) :: Ev.infoDelFile (p ++ [fn]) :: r.evs⟩
    else
      ⟨fn :: r.files, r.nf,
        Ev.delErr (p ++ [fn]) :: Ev.warnDelFile (p ++ [fn]) :: r.evs⟩

mutual
/-- `walk_dir` (lines 288-333): list the directory (failure logs a warning
and abandons only this subtree); recurse into subdirectories whose name is
not excluded; delete files; then, unless this is the job root, re-list and
-- when the re-listing is empty -- count and (not dry) remove this
directory, any exception in that last block silently swallowed. -/
def ftpWalkTree (exF exD : List String) (dry : Bool)
    (lo lo2 fo rmo : Path → Bool) (root p : Path) : FsTree → FtpOut
  | .node files dirs =>
    if lo p then
      let rc := ftpWalkForest exF exD dry lo lo2 fo rmo root p dirs
      let fr := ftpDeleteFiles exF dry fo p files
      let cur : FsTree := .node fr.files rc.forest
      let pre : List Ev :=
        Ev.listOk p (FsTree.listing (.node files dirs)) :: (rc.evs ++ fr.evs)
      if p = root then ⟨some cur, rc.nf + fr.nf, rc.nd, pre⟩
      else if lo2 p then
        if cur.listing.isEmpty then
          if dry then
            ⟨some cur, rc.nf + fr.nf, rc.nd + 1,
              pre ++ [Ev.listOk p cur.listing, Ev.infoDryRmDir p]⟩
          else if rmo p then
            ⟨none, rc.nf + fr.nf, rc.nd + 1,
              pre ++ [Ev.listOk p cur.listing, Ev.rmdirOk p, Ev.infoRmDir p]⟩
          else
            ⟨some cur, rc.nf + fr.nf, rc.nd,
              pre ++ [Ev.listOk p cur.listing, Ev.rmdirErr p]⟩
        else ⟨some cur, rc.nf + fr.nf, rc.nd, pre ++ [Ev.listOk p cur.listing]⟩
      else ⟨some cur, rc.nf + fr.nf, rc.nd, pre ++ [Ev.listFail p]⟩
    else ⟨some (.node files dirs), 0, 0, [Ev.listFail p, Ev.warnListFail p]⟩
/-- The recursion pass of `walk_dir` (lines 297-301): a child directory
whose name matches `exclude_folders` is skipped entirely; otherwise the
walk descends, and a child that removed itself disappears from the
forest. -/
def ftpWalkForest (exF exD : List String) (dry : Bool)
    (lo lo2 fo rmo : Path → Bool) (root p : Path) : FsForest → ForestOut
  | .nil => ⟨.nil, 0, 0, []⟩
  | .cons n t rest =>
    if matches_any n exD then
      let r2 := ftpWalkForest exF exD dry lo lo2 fo rmo root p rest
      ⟨.cons n t r2.forest, r2.nf, r2.nd, r2.evs⟩
    else
      let r1 := ftpWalkTree exF exD dry lo lo2 fo rmo root (p ++ [n]) t
      let r2 := ftpWalkForest exF exD dry lo lo2 fo rmo root p rest
      match r1.tree with
      | some t' =>
          ⟨.cons n t' r2.forest, r1.nf + r2.nf, r1.nd + r2.nd, r1.evs ++ r2.evs⟩
      | none => ⟨r2.forest, r1.nf + r2.nf, r1.nd + r2.nd, r1.evs ++ r2.evs⟩
end

/-- `ftp_cleanup_folder` (lines 276-336) on the normalized remote root
path: `walk_dir(remote_folder)`.  The root compares unequal to every
descendant path, so its own removal block never runs and `tree` is always
`some`; `getD` only restates that. -/
def ftp_cleanup_folder (exF exD : List String) (dry : Bool)
    (lo lo2 fo rmo : Path → Bool) (root : Path) (t : FsTree) : WalkOut :=
  let r := ftpWalkTree exF exD dry lo lo2 fo rmo root root t
  ⟨r.tree.getD t, r.nf, r.nd, r.evs⟩

example :
    (ftp_cleanup_folder [] [] false (fun _ => true) (fun _ => true)
      (fun _ => true) (fun _ => true) ["logs"]
      (.node ["a.log"] (.cons "d" (.node ["b.log"] .nil) .nil))).nf = 2 := by decide

example :
    (ftp_cleanup_folder [] ["d"] false (fun _ => true) (fun _ => true)
      (fun _ => true) (fun _ => true) ["logs"]
      (.node ["a.log"] (.cons "d" (.node ["b.log"] .nil) .nil))).nf = 1 := by decide

example :
    (ftp_cleanup_folder [] [] false (fun _ => true) (fun _ => true)
      (fun _ => true) (fun _ => true) ["logs"]
      (.node [] (.cons "d" (.node ["b.log"] .nil) .nil))).tree
      = .node [] .nil := by decide

/-! ## Scheduler (`App._run_due_jobs`, lines 560-584) -/

/-- The `Job` dataclass (lines 118-138). -/
structure Job where
  name : String
  enabled : Bool
  mode : String
  local_folders : List String
  ftp_target : String
  ftp_folders : List String
  exclude_files : List String
  exclude_folders : List String
  schedule_enabled : Bool
  days : List Nat
  hour : Nat
  minute : Nat
  last_run_key : String
  dry_run : Bool
  deriving DecidableEq

/-- One wall-clock instant as the scheduler reads it: the minute key
`now.strftime("%Y%m%d_%H%M")`, `now.weekday()`, `now.hour`, `now.minute`.
The key is a function of the calendar minute, so two instants in the same
minute share all four fields. -/
structure Tick where
  key : String
  dow : Nat
  hour : Nat
  minute : Nat
  deriving DecidableEq

/-- The due filter of `_run_due_jobs` (lines 567-574): the exact chain of
`continue` guards -- enabled, schedule_enabled, weekday in the persisted
`days` list (no normalization of an empty list here), exact hour and
minute match, and `last_run_key` different from the current minute key. -/
def jobDue (j : Job) (tk : Tick) : Bool :=
  j.enabled && j.schedule_enabled && j.days.contains tk.dow &&
    (tk.hour == j.hour) && (tk.minute == j.minute) && (j.last_run_key != tk.key)

structure TickOut where
  jobs : List Job
  fired : List Nat
  aborted : Bool
  deriving DecidableEq

/-- One scheduler evaluation pass over the job list (lines 566-584).
`runOk k` is whether `run_job` returns normally for the k-th job of the
remaining list.  A due job always gets `last_run_key := key` (the
`finally`), and an exception propagates, leaving later jobs unprocessed in
this tick (`_tick` catches it). -/
def runDueJobs (tk : Tick) (runOk : Nat → Bool) : List Job → TickOut
  | [] => ⟨[], [], false⟩
  | j :: rest =>
    if jobDue j tk then
      let j' := { j with last_run_key := tk.key }
      if runOk 0 then
        let r := runDueJobs tk (fun k => runOk (k + 1)) rest
        ⟨j' :: r.jobs, 0 :: r.fired.map (· + 1), r.aborted⟩
      else ⟨j' :: rest, [0], true⟩
    else
      let r := runDueJobs tk (fun k => runOk (k + 1)) rest
      ⟨j :: r.jobs, r.fired.map (· + 1), r.aborted⟩

/-- `n` consecutive scheduler ticks at the same wall-clock minute
(`_tick` re-runs `_run_due_jobs` every `tick_seconds`; several ticks can
land in one minute).  `runOk t k` is the run outcome for job `k` at tick
`t`.  Returns the fired index list of each tick and the final job list. -/
def runTicks (tk : Tick) (runOk : Nat → Nat → Bool) :
    Nat → List Job → List (List Nat) × List Job
  | 0, js => ([], js)
  | n + 1, js =>
    let r := runDueJobs tk (runOk 0) js
    let rest := runTicks tk (fun t => runOk (t + 1)) n r.jobs
    (r.fired :: rest.1, rest.2)

/-- How many of the ticks fired job index `i`. -/
def countFires (ls : List (List Nat)) (i : Nat) : Nat :=
  (ls.map (fun l => if i ∈ l then 1 else 0)).sum

/-- Modelled from the spec: the due condition as §4.4 states it, with the
empty `days` list normalized to all seven weekdays ("empty persisted list
⇒ treat as all 7 days").  Used to compare the spec's claim with `jobDue`,
which the code actually evaluates. -/
def specDue (j : Job) (tk : Tick) : Bool :=
  j.enabled && j.schedule_enabled &&
    (if j.days.isEmpty then [0, 1, 2, 3, 4, 5, 6] else j.days).contains tk.dow &&
    (tk.hour == j.hour) && (tk.minute == j.minute) && (j.last_run_key != tk.key)

/-! ## Derived counting and shape functions used to state the theorems -/

/-- No event in the trace is a mutating backend call. -/
def noMutations (l : List Ev) : Bool :=
  l.all (fun e => !e.isMutationCall)

/-- Per-directory file-counter contribution of the local files loop:
an excluded name contributes nothing; dry-run counts every other name;
otherwise exactly the attempts that do not raise are counted. -/
def localAttemptFiles (exF : List String) (dry : Bool) (uo : Path → FileOutcome)
    (p : Path) : List String → Nat
  | [] => 0
  | fn :: rest =>
      (if matches_any fn exF then 0
       else if dry then 1
       else if uo (p ++ [fn]) = .err then 0 else 1) +
        localAttemptFiles exF dry uo p rest

mutual
/-- The local walk visits every directory, so the files counter is the sum
of `localAttemptFiles` over all directories of the initial tree. -/
def localAttemptTree (exF : List String) (dry : Bool) (uo : Path → FileOutcome)
    (p : Path) : FsTree → Nat
  | .node files dirs =>
      localAttemptFiles exF dry uo p files + localAttemptForest exF dry uo p dirs
def localAttemptForest (exF : List String) (dry : Bool) (uo : Path → FileOutcome)
    (p : Path) : FsForest → Nat
  | .nil => 0
  | .cons n t rest =>
      localAttemptTree exF dry uo (p ++ [n]) t + localAttemptForest exF dry uo p rest
end

/-- Per-directory file-counter contribution of the remote files loop. -/
def ftpAttemptFiles (exF : List String) (dry : Bool) (fo : Path → Bool)
    (p : Path) : List String → Nat
  | [] => 0
  | fn :: rest =>
      (if matches_any fn exF then 0
       else if dry then 1
       else if fo (p ++ [fn]) then 1 else 0) +
        ftpAttemptFiles exF dry fo p rest

mutual
/-- The remote walk only reaches a directory when its listing succeeded
and no ancestor below the root was excluded, so the files counter sums
`ftpAttemptFiles` over exactly those directories. -/
def ftpAttemptTree (exF exD : List String) (dry : Bool) (lo fo : Path → Bool)
    (p : Path) : FsTree → Nat
  | .node files dirs =>
      if lo p then
        ftpAttemptFiles exF dry fo p files +
          ftpAttemptForest exF exD dry lo fo p dirs
      else 0
def ftpAttemptForest (exF exD : List String) (dry : Bool) (lo fo : Path → Bool)
    (p : Path) : FsForest → Nat
  | .nil => 0
  | .cons n t rest =>
      (if matches_any n exD then 0
       else ftpAttemptTree exF exD dry lo fo (p ++ [n]) t) +
        ftpAttemptForest exF exD dry lo fo p rest
end

mutual
/-- Shape of the tree a fault-free non-dry local run leaves behind: in
every directory (excluded-name directories included) exactly the files
matching `exclude_files` survive, and afterwards the now-empty
subdirectories whose name is not excluded disappear. -/
def localCleanedTree (exF exD : List String) : FsTree → FsTree
  | .node files dirs =>
      .node (files.filter (fun fn => matches_any fn exF))
        (localCleanedForest exF exD dirs)
def localCleanedForest (exF exD : List String) : FsForest → FsForest
  | .nil => .nil
  | .cons n t rest =>
      if !(matches_any n exD) && (localCleanedTree exF exD t).isEmptyDir then
        localCleanedForest exF exD rest
      else .cons n (localCleanedTree exF exD t) (localCleanedForest exF exD rest)
end

/-- The per-child result of the local forest walk before pruning: every
child is kept, with its subtree cleaned. -/
def localCleanedMap (exF exD : List String) : FsForest → FsForest
  | .nil => .nil
  | .cons n t rest =>
      .cons n (localCleanedTree exF exD t) (localCleanedMap exF exD rest)

/-- Warning discipline of a local run: a file-deletion warning appears only
for a path whose unlink raised, and the local backend never logs a listing
warning (its directory-removal block swallows every exception silently). -/
def localWarnOk (uo : Path → FileOutcome) : Ev → Bool
  | .warnDelFile p => decide (uo p = FileOutcome.err)
  | .warnListFail _ => false
  | _ => true

/-- Warning discipline of a remote run: a file-deletion warning appears only
for a failed `DELE` and a listing warning only for a failed opening
`list_dir`; nothing else -- in particular no removal failure -- is ever
logged as a warning. -/
def ftpWarnOk (lo fo : Path → Bool) : Ev → Bool
  | .warnDelFile p => !(fo p)
  | .warnListFail p => !(lo p)
  | _ => true

/-- No component of the path fragment matches an exclude-folder pattern. -/
def compsClean (exD : List String) (q : List String) : Bool :=
  q.all (fun c => !matches_any c exD)

/-- The path is below the root and every component after the root is a
directory name that no exclude-folder pattern matches. -/
def underCleanDir (exD : List String) (root p : Path) : Bool :=
  root.isPrefixOf p && compsClean exD (p.drop root.length)

/-- The path is a file strictly below the root and every directory
component after the root (everything but the basename) is clean. -/
def underCleanParent (exD : List String) (root p : Path) : Bool :=
  root.isPrefixOf p && !(p.drop root.length).isEmpty &&
    compsClean exD ((p.drop root.length).dropLast)

/-- Remote-trace discipline towards excluded folder names: every list call
and removal attempt targets a directory whose whole chain below the root is
unexcluded, and every file deletion sits directly inside such a chain. -/
def ftpEvClean (exD : List String) (root : Path) : Ev → Bool
  | .listOk p _ => underCleanDir exD root p
  | .listFail p => underCleanDir exD root p
  | .rmdirOk p => underCleanDir exD root p
  | .rmdirErr p => underCleanDir exD root p
  | .delOk p => underCleanParent exD root p
  | .delErr p => underCleanParent exD root p
  | _ => true

/-- In a local trace, a removal attempt must directly follow the emptiness
probe of the same directory reporting zero children. -/
def localAdj (prev : Option Ev) : Ev → Bool
  | .rmdirOk p => prev == some (.probe p true)
  | .rmdirErr p => prev == some (.probe p true)
  | _ => true

/-- In a remote trace, a removal attempt must directly follow a listing of
the same directory that came back empty. -/
def ftpAdj (prev : Option Ev) : Ev → Bool
  | .rmdirOk p => prev == some (.listOk p [])
  | .rmdirErr p => prev == some (.listOk p [])
  | _ => true

/-- Scan a trace checking every event against its predecessor. -/
def chainOk (adj : Option Ev → Ev → Bool) : Option Ev → List Ev → Bool
  | _, [] => true
  | prev, e :: rest => adj prev e && chainOk adj (some e) rest

/-- Last event of `l`, or `prev` when `l` is empty. -/
def lastEv (prev : Option Ev) (l : List Ev) : Option Ev :=
  match l.getLast? with
  | some e => some e
  | none => prev

/-! ## Concrete fixtures used by counterexamples and witnesses -/

/-- A job whose persisted `days` list is empty (as a hand-edited config can
contain) but which is otherwise due at `tickWed3`. -/
def jobEmptyDays : Job :=
  { name := "cleanup", enabled := true, mode := "local",
    local_folders := ["logs"], ftp_target := "", ftp_folders := [],
    exclude_files := [], exclude_folders := [],
    schedule_enabled := true, days := [], hour := 3, minute := 0,
    last_run_key := "", dry_run := true }

/-- The same job scheduled on Wednesday (weekday 2). -/
def jobWed : Job :=
  { jobEmptyDays with days := [2] }

/-- A Wednesday at 03:00 with its minute key. -/
def tickWed3 : Tick :=
  { key := "20260101_0300", dow := 2, hour := 3, minute := 0 }

/-- A root with one subdirectory `d` holding one deletable file. -/
def treeC8 : FsTree := .node [] (.cons "d" (.node ["a.log"] .nil) .nil)

/-- A root with one empty subdirectory `d`. -/
def treeC7 : FsTree := .node [] (.cons "d" (.node [] .nil) .nil)

/-- A root whose only subdirectory has an excluded name and holds a file. -/
def treeC5 : FsTree :=
  .node [] (.cons "config" (.node ["inner.log"] .nil) .nil)

/-! ## Dry-run mutates nothing (towards C1) -/

theorem noMutations_append (a b : List Ev) :
    noMutations (a ++ b) = (noMutations a && noMutations b) := by
  simp [noMutations, List.all_append]

theorem noMutations_cons (e : Ev) (l : List Ev) :
    noMutations (e :: l) = (!e.isMutationCall && noMutations l) := by
  simp [noMutations]

theorem noMutations_nil : noMutations [] = true := by
  simp [noMutations]

theorem localDeleteFiles_dry (exF : List String) (uo : Path → FileOutcome)
    (p : Path) (l : List String) :
    (localDeleteFiles exF true uo p l).files = l ∧
      noMutations (localDeleteFiles exF true uo p l).evs = true := by
  induction l with
  | nil => simp [localDeleteFiles, noMutations]
  | cons fn rest ih =>
    cases hm : matches_any fn exF <;>
      simpa [localDeleteFiles, hm, noMutations, Ev.isMutationCall] using ih

theorem localPruneDirs_dry (exD : List String) (ro : Path → Bool)
    (p : Path) : ∀ f : FsForest,
    (localPruneDirs exD true ro p f).forest = f ∧
      noMutations (localPruneDirs exD true ro p f).evs = true
  | .nil => by simp [localPruneDirs, noMutations]
  | .cons n t rest => by
    have ih := localPruneDirs_dry exD ro p rest
    cases hm : matches_any n exD <;> cases he : t.isEmptyDir <;>
      simpa [localPruneDirs, hm, he, noMutations, Ev.isMutationCall] using ih

mutual
theorem localWalkTree_dry (exF exD : List String) (uo : Path → FileOutcome)
    (ro : Path → Bool) : ∀ (p : Path) (t : FsTree),
    (localWalkTree exF exD true uo ro p t).tree = t ∧
      noMutations (localWalkTree exF exD true uo ro p t).evs = true
  | p, .node files dirs => by
    obtain ⟨hc1, hc2⟩ := localWalkForest_dry exF exD uo ro p dirs
    obtain ⟨hf1, hf2⟩ := localDeleteFiles_dry exF uo p files
    obtain ⟨hp1, hp2⟩ := localPruneDirs_dry exD ro p
      (localWalkForest exF exD true uo ro p dirs).forest
    constructor
    · simp only [localWalkTree]
      rw [hf1, hp1, hc1]
    · simp only [localWalkTree, noMutations_append]
      simp [hc2, hf2, hp2]
theorem localWalkForest_dry (exF exD : List String) (uo : Path → FileOutcome)
    (ro : Path → Bool) : ∀ (p : Path) (f : FsForest),
    (localWalkForest exF exD true uo ro p f).forest = f ∧
      noMutations (localWalkForest exF exD true uo ro p f).evs = true
  | _, .nil => by simp [localWalkForest, noMutations]
  | p, .cons n t rest => by
    have h1 := localWalkTree_dry exF exD uo ro (p ++ [n]) t
    have h2 := localWalkForest_dry exF exD uo ro p rest
    simp only [localWalkForest, noMutations_append]
    exact ⟨by rw [h1.1, h2.1], by simp [h1.2, h2.2]⟩
end

theorem ftpDeleteFiles_dry (exF : List String) (fo : Path → Bool)
    (p : Path) (l : List String) :
    (ftpDeleteFiles exF true fo p l).files = l ∧
      noMutations (ftpDeleteFiles exF true fo p l).evs = true := by
  induction l with
  | nil => simp [ftpDeleteFiles, noMutations]
  | cons fn rest ih =>
    cases hm : matches_any fn exF <;>
      simpa [ftpDeleteFiles, hm, noMutations, Ev.isMutationCall] using ih

mutual
theorem ftpWalkTree_dry (exF exD : List String) (lo lo2 fo rmo : Path → Bool)
    (root : Path) : ∀ (p : Path) (t : FsTree),
    (ftpWalkTree exF exD true lo lo2 fo rmo root p t).tree = some t ∧
      noMutations (ftpWalkTree exF exD true lo lo2 fo rmo root p t).evs = true
  | p, .node files dirs => by
    obtain ⟨hc1, hc2⟩ := ftpWalkForest_dry exF exD lo lo2 fo rmo root p dirs
    obtain ⟨hf1, hf2⟩ := ftpDeleteFiles_dry exF fo p files
    cases hlo : lo p
    case false => simp [ftpWalkTree, hlo, noMutations, Ev.isMutationCall]
    case true =>
    have hcur : FsTree.node (ftpDeleteFiles exF true fo p files).files
        (ftpWalkForest exF exD true lo lo2 fo rmo root p dirs).forest
        = FsTree.node files dirs := by rw [hf1, hc1]
    by_cases hroot : p = root
    · subst hroot
      simp [ftpWalkTree, hlo, hcur, noMutations_cons, noMutations_append,
        hc2, hf2, Ev.isMutationCall]
    · cases hlo2 : lo2 p
      · simp [ftpWalkTree, hlo, hroot, hlo2, hcur, noMutations_cons,
          noMutations_append, noMutations_nil, hc2, hf2, Ev.isMutationCall]
      · cases hemp : (FsTree.node files dirs).listing
        · simp [ftpWalkTree, hlo, hroot, hlo2, hcur, hemp, noMutations_cons,
            noMutations_append, noMutations_nil, hc2, hf2, Ev.isMutationCall]
        · simp [ftpWalkTree, hlo, hroot, hlo2, hcur, hemp, noMutations_cons,
            noMutations_append, noMutations_nil, hc2, hf2, Ev.isMutationCall]
theorem ftpWalkForest_dry (exF exD : List String) (lo lo2 fo rmo : Path → Bool)
    (root : Path) : ∀ (p : Path) (f : FsForest),
    (ftpWalkForest exF exD true lo lo2 fo rmo root p f).forest = f ∧
      noMutations (ftpWalkForest exF exD true lo lo2 fo rmo root p f).evs = true
  | _, .nil => by simp [ftpWalkForest, noMutations]
  | p, .cons n t rest => by
    have h1 := ftpWalkTree_dry exF exD lo lo2 fo rmo root (p ++ [n]) t
    have h2 := ftpWalkForest_dry exF exD lo lo2 fo rmo root p rest
    cases hm : matches_any n exD
    · simp [ftpWalkForest, hm, h1.1, noMutations_append, h1.2, h2.1, h2.2]
    · simpa [ftpWalkForest, hm] using h2
end

/-- C1: with `dry_run=true` neither cleanup engine performs any mutation:
no file-deletion and no directory-removal backend call appears in the
trace, and the resulting tree is exactly the initial tree, for any
exclusion lists and any backend failure oracles. -/
theorem claim_C1 (exF exD : List String) (uo : Path → FileOutcome)
    (ro lo lo2 fo rmo : Path → Bool) (root : Path) (t : FsTree) :
    ((local_cleanup_folder exF exD true uo ro t).tree = t ∧
      noMutations (local_cleanup_folder exF exD true uo ro t).evs = true) ∧
    ((ftp_cleanup_folder exF exD true lo lo2 fo rmo root t).tree = t ∧
      noMutations (ftp_cleanup_folder exF exD true lo lo2 fo rmo root t).evs = true) := by
  have hl := localWalkTree_dry exF exD uo ro [] t
  have hf := ftpWalkTree_dry exF exD lo lo2 fo rmo root root t
  refine ⟨⟨hl.1, hl.2⟩, ⟨?_, ?_⟩⟩
  · simp [ftp_cleanup_folder, hf.1]
  · simpa [ftp_cleanup_folder] using hf.2

/-! ## Scheduler lemmas (towards C2 and C3) -/

/-- A job index fires in a tick exactly when its job passes the due filter
and every earlier due job's run returned normally (an exception from an
earlier `run_job` aborts the loop for the rest of the tick). -/
theorem runDueJobs_fired_iff (tk : Tick) (runOk : Nat → Bool) (js : List Job)
    (i : Nat) :
    i ∈ (runDueJobs tk runOk js).fired ↔
      ((∃ j, js[i]? = some j ∧ jobDue j tk = true) ∧
        ∀ k, k < i → ∀ jk, js[k]? = some jk → jobDue jk tk = true →
          runOk k = true) := by
  induction js generalizing i runOk with
  | nil => simp [runDueJobs]
  | cons j rest ih =>
    by_cases hd : jobDue j tk = true
    · by_cases ho : runOk 0 = true
      · rw [runDueJobs, if_pos hd, if_pos ho]
        cases i with
        | zero =>
          simp only [List.mem_cons]
          constructor
          · intro _
            exact ⟨⟨j, by simp, hd⟩, fun k hk => by omega⟩
          · intro _
            simp
        | succ i' =>
          simp only [List.mem_cons, List.mem_map, List.getElem?_cons_succ]
          constructor
          · rintro (h | ⟨a, ha, ha2⟩)
            · omega
            · rw [show a = i' from by omega] at ha
              obtain ⟨h1, h2⟩ := (ih (fun k => runOk (k + 1)) i').1 ha
              refine ⟨h1, ?_⟩
              intro k hk jk hjk hdue
              cases k with
              | zero =>
                simp only [List.getElem?_cons_zero, Option.some_inj] at hjk
                subst hjk
                exact ho
              | succ k' =>
                simp only [List.getElem?_cons_succ] at hjk
                exact h2 k' (by omega) jk hjk hdue
          · rintro ⟨h1, h2⟩
            refine Or.inr ⟨i', ?_, rfl⟩
            refine (ih (fun k => runOk (k + 1)) i').2 ⟨h1, ?_⟩
            intro k hk jk hjk hdue
            exact h2 (k + 1) (by omega) jk (by simpa using hjk) hdue
      · rw [runDueJobs, if_pos hd, if_neg ho]
        cases i with
        | zero =>
          simp only [List.mem_singleton]
          constructor
          · intro _
            exact ⟨⟨j, by simp, hd⟩, fun k hk => by omega⟩
          · intro _
            simp
        | succ i' =>
          simp only [List.mem_singleton]
          constructor
          · intro h
            omega
          · rintro ⟨h1, h2⟩
            exact absurd (h2 0 (by omega) j (by simp) hd) ho
    · rw [runDueJobs, if_neg hd]
      cases i with
      | zero =>
        simp only [List.mem_map]
        constructor
        · rintro ⟨a, _, ha2⟩
          omega
        · rintro ⟨⟨j0, hj0, hdue⟩, _⟩
          simp only [List.getElem?_cons_zero, Option.some_inj] at hj0
          subst hj0
          exact absurd hdue hd
      | succ i' =>
        simp only [List.mem_map, List.getElem?_cons_succ]
        constructor
        · rintro ⟨a, ha, ha2⟩
          rw [show a = i' from by omega] at ha
          obtain ⟨h1, h2⟩ := (ih (fun k => runOk (k + 1)) i').1 ha
          refine ⟨h1, ?_⟩
          intro k hk jk hjk hdue
          cases k with
          | zero =>
            simp only [List.getElem?_cons_zero, Option.some_inj] at hjk
            subst hjk
            exact absurd hdue hd
          | succ k' =>
            simp only [List.getElem?_cons_succ] at hjk
            exact h2 k' (by omega) jk hjk hdue
        · rintro ⟨h1, h2⟩
          refine ⟨i', ?_, rfl⟩
          refine (ih (fun k => runOk (k + 1)) i').2 ⟨h1, ?_⟩
          intro k hk jk hjk hdue
          exact h2 (k + 1) (by omega) jk (by simpa using hjk) hdue

/-- A fired index gets the current minute key written, whatever the run
outcome (the `finally`). -/
theorem runDueJobs_fired_key (tk : Tick) (runOk : Nat → Bool) (js : List Job)
    (i : Nat) (h : i ∈ (runDueJobs tk runOk js).fired) :
    ∃ j', ((runDueJobs tk runOk js).jobs)[i]? = some j' ∧
      j'.last_run_key = tk.key := by
  induction js generalizing i runOk with
  | nil => simp [runDueJobs] at h
  | cons j rest ih =>
    by_cases hd : jobDue j tk = true
    · by_cases ho : runOk 0 = true
      · rw [runDueJobs, if_pos hd, if_pos ho] at h ⊢
        rcases List.mem_cons.1 h with h0 | hmem
        · subst h0
          simp
        · simp only [List.mem_map] at hmem
          obtain ⟨a, ha, rfl⟩ := hmem
          simpa using ih (fun k => runOk (k + 1)) a ha
      · rw [runDueJobs, if_pos hd, if_neg ho] at h ⊢
        simp only [List.mem_singleton] at h
        subst h
        simp
    · rw [runDueJobs, if_neg hd] at h ⊢
      simp only [List.mem_map] at h
      obtain ⟨a, ha, rfl⟩ := h
      simpa using ih (fun k => runOk (k + 1)) a ha

/-- A job that does not fire in a tick is left untouched. -/
theorem runDueJobs_notfired (tk : Tick) (runOk : Nat → Bool) (js : List Job)
    (i : Nat) (h : i ∉ (runDueJobs tk runOk js).fired) :
    ((runDueJobs tk runOk js).jobs)[i]? = js[i]? := by
  induction js generalizing i runOk with
  | nil => simp [runDueJobs]
  | cons j rest ih =>
    by_cases hd : jobDue j tk = true
    · by_cases ho : runOk 0 = true
      · rw [runDueJobs, if_pos hd, if_pos ho] at h ⊢
        cases i with
        | zero => exact absurd (List.mem_cons_self 0 _) h
        | succ i' =>
          have hni : i' ∉ (runDueJobs tk (fun k => runOk (k + 1)) rest).fired := by
            intro hmem
            exact h (List.mem_cons_of_mem _ (by
              simp only [List.mem_map]
              exact ⟨i', hmem, rfl⟩))
          simpa using ih (fun k => runOk (k + 1)) i' hni
      · rw [runDueJobs, if_pos hd, if_neg ho] at h ⊢
        cases i with
        | zero => exact absurd (List.mem_singleton.2 rfl) h
        | succ i' => simp
    · rw [runDueJobs, if_neg hd] at h ⊢
      cases i with
      | zero => simp
      | succ i' =>
        have hni : i' ∉ (runDueJobs tk (fun k => runOk (k + 1)) rest).fired := by
          intro hmem
          exact h (by
            simp only [List.mem_map]
            exact ⟨i', hmem, rfl⟩)
        simpa using ih (fun k => runOk (k + 1)) i' hni

/-- A job already stamped with the current minute key never fires. -/
theorem runDueJobs_key_notfired (tk : Tick) (runOk : Nat → Bool) (js : List Job)
    (i : Nat) (ji : Job) (hj : js[i]? = some ji)
    (hk : ji.last_run_key = tk.key) : i ∉ (runDueJobs tk runOk js).fired := by
  intro hmem
  obtain ⟨⟨j0, hj0, hdue⟩, _⟩ := (runDueJobs_fired_iff tk runOk js i).1 hmem
  rw [hj] at hj0
  cases hj0
  simp [jobDue, hk] at hdue

theorem countFires_cons (l : List Nat) (ls : List (List Nat)) (i : Nat) :
    countFires (l :: ls) i = (if i ∈ l then 1 else 0) + countFires ls i := by
  simp [countFires]

/-- Once stamped with the current minute key, a job stays unstamped-free:
no later tick at the same minute fires it. -/
theorem runTicks_stamped_zero (tk : Tick) :
    ∀ (n : Nat) (runOk : Nat → Nat → Bool) (js : List Job) (i : Nat) (ji : Job),
    js[i]? = some ji → ji.last_run_key = tk.key →
    countFires (runTicks tk runOk n js).1 i = 0 := by
  intro n
  induction n with
  | zero => intro runOk js i ji _ _; simp [runTicks, countFires]
  | succ n ih =>
    intro runOk js i ji hj hk
    have hnot := runDueJobs_key_notfired tk (runOk 0) js i ji hj hk
    have hsame := runDueJobs_notfired tk (runOk 0) js i hnot
    rw [runTicks]
    rw [countFires_cons, if_neg hnot]
    simpa using ih (fun t => runOk (t + 1)) _ i ji (hsame.trans hj) hk

/-- Over any number of ticks inside one minute, each job index fires at
most once. -/
theorem runTicks_at_most_once (tk : Tick) :
    ∀ (n : Nat) (runOk : Nat → Nat → Bool) (js : List Job) (i : Nat),
    countFires (runTicks tk runOk n js).1 i ≤ 1 := by
  intro n
  induction n with
  | zero => intro runOk js i; simp [runTicks, countFires]
  | succ n ih =>
    intro runOk js i
    rw [runTicks, countFires_cons]
    by_cases hmem : i ∈ (runDueJobs tk (runOk 0) js).fired
    · obtain ⟨j', hj', hk'⟩ := runDueJobs_fired_key tk (runOk 0) js i hmem
      rw [if_pos hmem]
      have := runTicks_stamped_zero tk n (fun t => runOk (t + 1))
        (runDueJobs tk (runOk 0) js).jobs i j' hj' hk'
      omega
    · rw [if_neg hmem]
      simpa using ih (fun t => runOk (t + 1)) (runDueJobs tk (runOk 0) js).jobs i

/-! ## Claims C2, C3 and C9 -/

/-- C2 counterexample: the claim requires an empty persisted `days` list to
count as all seven weekdays, but `_run_due_jobs` tests `dow not in j.days`
on the raw list, so a job with `days = []` is never due even when every
other condition holds: the claimed "fires iff" equivalence is false at this
input. -/
theorem claim_C2_counterexample :
    specDue jobEmptyDays tickWed3 = true ∧
      jobDue jobEmptyDays tickWed3 = false ∧
      (runDueJobs tickWed3 (fun _ => true) [jobEmptyDays]).fired = [] := by
  decide

/-- C2 (amended): on a scheduler tick a job fires iff `enabled`,
`schedule_enabled`, the current weekday is in the job's persisted `days`
list exactly as stored (no normalization: an empty list never matches),
the hour and minute equal the configured ones, `last_run_key` differs from
the current minute key -- and no earlier due job's run raised in the same
tick. -/
theorem claim_C2 (tk : Tick) (runOk : Nat → Bool) (js : List Job) (i : Nat) :
    i ∈ (runDueJobs tk runOk js).fired ↔
      ((∃ j, js[i]? = some j ∧ jobDue j tk = true) ∧
        ∀ k, k < i → ∀ jk, js[k]? = some jk → jobDue jk tk = true →
          runOk k = true) :=
  runDueJobs_fired_iff tk runOk js i

/-- C3: a fired job's `last_run_key` is set to the current minute key even
when its run raises (the `finally` block), and over any sequence of ticks
within one calendar minute every job fires at most once. -/
theorem claim_C3 :
    (∀ (tk : Tick) (runOk : Nat → Bool) (js : List Job) (i : Nat),
        i ∈ (runDueJobs tk runOk js).fired →
        ∃ j', ((runDueJobs tk runOk js).jobs)[i]? = some j' ∧
          j'.last_run_key = tk.key) ∧
    (∀ (tk : Tick) (runOk : Nat → Nat → Bool) (n : Nat) (js : List Job)
        (i : Nat), countFires (runTicks tk runOk n js).1 i ≤ 1) :=
  ⟨fun tk runOk js i h => runDueJobs_fired_key tk runOk js i h,
   fun tk runOk n js i => runTicks_at_most_once tk n runOk js i⟩

/-- C3 witness: a due job whose run raises (`runOk` constantly false)
still gets the minute key, and over three ticks in the same minute it
fires at most once. -/
theorem claim_C3_witness :
    (∃ j', ((runDueJobs tickWed3 (fun _ => false) [jobWed]).jobs)[0]? = some j' ∧
      j'.last_run_key = tickWed3.key) ∧
    countFires (runTicks tickWed3 (fun _ _ => false) 3 [jobWed]).1 0 ≤ 1 :=
  ⟨claim_C3.1 tickWed3 (fun _ => false) [jobWed] 0 (by decide),
   claim_C3.2 tickWed3 (fun _ _ => false) 3 [jobWed] 0⟩

/-- C9: `matches_any` returns true exactly when some pattern that is
non-empty after stripping surrounding whitespace glob-matches the whole
name.  The shared matcher `glob` is anchored (both lists must be fully
consumed) and compares characters by code point, so matching is
case-sensitive and never a substring match; stripped-empty patterns are
skipped; and as a pure function the embedding has no side effects. -/
theorem claim_C9 (name : String) (patterns : List String) :
    matches_any name patterns = true ↔
      ∃ pat ∈ patterns, (pyStrip pat.data).isEmpty = false ∧
        glob (pyStrip pat.data) name.data = true := by
  simp [matches_any, List.any_eq_true, Bool.and_eq_true]

/-! ## File-counter characterizations (towards C7, C8, C10) -/

theorem localDeleteFiles_nf (exF : List String) (dry : Bool)
    (uo : Path → FileOutcome) (p : Path) (l : List String) :
    (localDeleteFiles exF dry uo p l).nf = localAttemptFiles exF dry uo p l := by
  induction l with
  | nil => simp [localDeleteFiles, localAttemptFiles]
  | cons fn rest ih =>
    cases hm : matches_any fn exF
    · cases hdry : dry
      · subst hdry
        cases huo : uo (p ++ [fn]) <;>
          simp [localDeleteFiles, localAttemptFiles, hm, huo, ih] <;> omega
      · subst hdry
        simp [localDeleteFiles, localAttemptFiles, hm, ih]
        omega
    · simp [localDeleteFiles, localAttemptFiles, hm, ih]

mutual
theorem localWalkTree_nf (exF exD : List String) (dry : Bool)
    (uo : Path → FileOutcome) (ro : Path → Bool) : ∀ (p : Path) (t : FsTree),
    (localWalkTree exF exD dry uo ro p t).nf = localAttemptTree exF dry uo p t
  | p, .node files dirs => by
    have hc := localWalkForest_nf exF exD dry uo ro p dirs
    have hf := localDeleteFiles_nf exF dry uo p files
    simp only [localWalkTree, localAttemptTree]
    rw [hc, hf]
    omega
theorem localWalkForest_nf (exF exD : List String) (dry : Bool)
    (uo : Path → FileOutcome) (ro : Path → Bool) : ∀ (p : Path) (f : FsForest),
    (localWalkForest exF exD dry uo ro p f).nf = localAttemptForest exF dry uo p f
  | _, .nil => by simp [localWalkForest, localAttemptForest]
  | p, .cons n t rest => by
    have h1 := localWalkTree_nf exF exD dry uo ro (p ++ [n]) t
    have h2 := localWalkForest_nf exF exD dry uo ro p rest
    simp only [localWalkForest, localAttemptForest]
    rw [h1, h2]
end

theorem localAttemptFiles_dry_wet (exF : List String) (uo : Path → FileOutcome)
    (p : Path) (l : List String) :
    localAttemptFiles exF true uo p l
      = localAttemptFiles exF false (fun _ => FileOutcome.ok) p l := by
  induction l with
  | nil => simp [localAttemptFiles]
  | cons fn rest ih =>
    cases hm : matches_any fn exF <;> simp [localAttemptFiles, hm, ih]

mutual
theorem localAttemptTree_dry_wet (exF : List String) (uo : Path → FileOutcome) :
    ∀ (p : Path) (t : FsTree),
    localAttemptTree exF true uo p t
      = localAttemptTree exF false (fun _ => FileOutcome.ok) p t
  | p, .node files dirs => by
    have hc := localAttemptForest_dry_wet exF uo p dirs
    simp only [localAttemptTree]
    rw [localAttemptFiles_dry_wet, hc]
theorem localAttemptForest_dry_wet (exF : List String) (uo : Path → FileOutcome) :
    ∀ (p : Path) (f : FsForest),
    localAttemptForest exF true uo p f
      = localAttemptForest exF false (fun _ => FileOutcome.ok) p f
  | _, .nil => by simp [localAttemptForest]
  | p, .cons n t rest => by
    have h1 := localAttemptTree_dry_wet exF uo (p ++ [n]) t
    have h2 := localAttemptForest_dry_wet exF uo p rest
    simp only [localAttemptForest]
    rw [h1, h2]
end

theorem ftpDeleteFiles_nf (exF : List String) (dry : Bool) (fo : Path → Bool)
    (p : Path) (l : List String) :
    (ftpDeleteFiles exF dry fo p l).nf = ftpAttemptFiles exF dry fo p l := by
  induction l with
  | nil => simp [ftpDeleteFiles, ftpAttemptFiles]
  | cons fn rest ih =>
    cases hm : matches_any fn exF
    · cases hdry : dry
      · subst hdry
        cases hfo : fo (p ++ [fn]) <;>
          · simp [ftpDeleteFiles, ftpAttemptFiles, hm, hfo, ih]
            try omega
      · subst hdry
        simp [ftpDeleteFiles, ftpAttemptFiles, hm, ih]
        omega
    · simp [ftpDeleteFiles, ftpAttemptFiles, hm, ih]

mutual
theorem ftpWalkTree_nf (exF exD : List String) (dry : Bool)
    (lo lo2 fo rmo : Path → Bool) (root : Path) : ∀ (p : Path) (t : FsTree),
    (ftpWalkTree exF exD dry lo lo2 fo rmo root p t).nf
      = ftpAttemptTree exF exD dry lo fo p t
  | p, .node files dirs => by
    have hc := ftpWalkForest_nf exF exD dry lo lo2 fo rmo root p dirs
    have hf := ftpDeleteFiles_nf exF dry fo p files
    cases hlo : lo p
    · simp [ftpWalkTree, ftpAttemptTree, hlo]
    · simp only [ftpWalkTree, ftpAttemptTree, hlo]
      split_ifs <;> simp [hc, hf] <;> omega
theorem ftpWalkForest_nf (exF exD : List String) (dry : Bool)
    (lo lo2 fo rmo : Path → Bool) (root : Path) : ∀ (p : Path) (f : FsForest),
    (ftpWalkForest exF exD dry lo lo2 fo rmo root p f).nf
      = ftpAttemptForest exF exD dry lo fo p f
  | _, .nil => by simp [ftpWalkForest, ftpAttemptForest]
  | p, .cons n t rest => by
    have h1 := ftpWalkTree_nf exF exD dry lo lo2 fo rmo root (p ++ [n]) t
    have h2 := ftpWalkForest_nf exF exD dry lo lo2 fo rmo root p rest
    cases hm : matches_any n exD
    · cases h1t : (ftpWalkTree exF exD dry lo lo2 fo rmo root (p ++ [n]) t).tree <;>
        simp [ftpWalkForest, ftpAttemptForest, hm, h1t, h1, h2]
    · simp [ftpWalkForest, ftpAttemptForest, hm, h2]
end

theorem ftpAttemptFiles_dry_wet (exF : List String) (fo : Path → Bool)
    (p : Path) (l : List String) :
    ftpAttemptFiles exF true fo p l
      = ftpAttemptFiles exF false (fun _ => true) p l := by
  induction l with
  | nil => simp [ftpAttemptFiles]
  | cons fn rest ih =>
    cases hm : matches_any fn exF <;> simp [ftpAttemptFiles, hm, ih]

mutual
theorem ftpAttemptTree_dry_wet (exF exD : List String) (lo fo : Path → Bool) :
    ∀ (p : Path) (t : FsTree),
    ftpAttemptTree exF exD true lo fo p t
      = ftpAttemptTree exF exD false lo (fun _ => true) p t
  | p, .node files dirs => by
    have hc := ftpAttemptForest_dry_wet exF exD lo fo p dirs
    cases hlo : lo p <;> simp only [ftpAttemptTree, hlo] <;>
      simp [ftpAttemptFiles_dry_wet, hc]
theorem ftpAttemptForest_dry_wet (exF exD : List String) (lo fo : Path → Bool) :
    ∀ (p : Path) (f : FsForest),
    ftpAttemptForest exF exD true lo fo p f
      = ftpAttemptForest exF exD false lo (fun _ => true) p f
  | _, .nil => by simp [ftpAttemptForest]
  | p, .cons n t rest => by
    have h1 := ftpAttemptTree_dry_wet exF exD lo fo (p ++ [n]) t
    have h2 := ftpAttemptForest_dry_wet exF exD lo fo p rest
    cases hm : matches_any n exD <;> simp [ftpAttemptForest, hm, h1, h2]
end

/-! ## Claim C8: dry-run counters versus real counters -/

/-- C8 counterexample: dry-run returns `(1, 0)` on `treeC8` but a fault-free
real run returns `(1, 1)`: in dry-run nothing is deleted, so the emptiness
check sees `d` still holding `a.log` and the would-be directory removal is
neither performed nor counted, while the real run deletes the file first and
then removes the emptied `d`.  The claimed equality of both counters is
false. -/
theorem claim_C8_counterexample :
    ((local_cleanup_folder [] [] true (fun _ => .ok) (fun _ => true) treeC8).nf,
     (local_cleanup_folder [] [] true (fun _ => .ok) (fun _ => true) treeC8).nd)
      = (1, 0) ∧
    ((local_cleanup_folder [] [] false (fun _ => .ok) (fun _ => true) treeC8).nf,
     (local_cleanup_folder [] [] false (fun _ => .ok) (fun _ => true) treeC8).nd)
      = (1, 1) := by
  decide

/-- C8 (amended): for fault-free runs the `files_deleted` counter of a
dry run equals that of a real run on the same initial tree, for both
backends (sharing the same listing outcomes); the `dirs_removed` counters
need not be equal, because the dry-run emptiness check reads the unmutated
tree (see the counterexample). -/
theorem claim_C8 (exF exD : List String) (uo : Path → FileOutcome)
    (ro lo lo2 lo2' rmo rmo' : Path → Bool) (root : Path) (t : FsTree) :
    (local_cleanup_folder exF exD true uo ro t).nf
      = (local_cleanup_folder exF exD false (fun _ => .ok) (fun _ => true) t).nf ∧
    (ftp_cleanup_folder exF exD true lo lo2 (fun _ => true) rmo root t).nf
      = (ftp_cleanup_folder exF exD false lo lo2' (fun _ => true) rmo' root t).nf := by
  constructor
  · rw [local_cleanup_folder, local_cleanup_folder, localWalkTree_nf,
      localWalkTree_nf]
    exact localAttemptTree_dry_wet exF uo [] t
  · show (ftpWalkTree exF exD true lo lo2 (fun _ => true) rmo root root t).nf
      = (ftpWalkTree exF exD false lo lo2' (fun _ => true) rmo' root root t).nf
    rw [ftpWalkTree_nf, ftpWalkTree_nf]
    exact ftpAttemptTree_dry_wet exF exD lo (fun _ => true) root t

/-! ## Claim C5: local traversal ignores exclude_folders except for removal -/

theorem isEmptyDir_node_cons (files : List String) (n : String) (t : FsTree)
    (rest : FsForest) :
    (FsTree.node files (.cons n t rest)).isEmptyDir = false := by
  cases files <;> rfl

theorem dirAt_cons_nonempty (d : String) (rest : Path) (u v : FsTree)
    (h : FsTree.dirAt (d :: rest) u = some v) : u.isEmptyDir = false := by
  cases u with
  | node files dirs =>
    cases dirs with
    | nil =>
      rw [FsTree.dirAt, FsForest.findDir] at h
      cases h
    | cons m t r => exact isEmptyDir_node_cons files m t r

theorem localDeleteFiles_wet_files (exF : List String) (p : Path)
    (l : List String) :
    (localDeleteFiles exF false (fun _ => FileOutcome.ok) p l).files
      = l.filter (fun fn => matches_any fn exF) := by
  induction l with
  | nil => simp [localDeleteFiles]
  | cons fn rest ih =>
    cases hm : matches_any fn exF <;>
      simp [localDeleteFiles, List.filter_cons, hm, ih]

theorem localPruneDirs_cleaned (exF exD : List String) (p : Path) :
    ∀ f : FsForest,
    (localPruneDirs exD false (fun _ => true) p (localCleanedMap exF exD f)).forest
      = localCleanedForest exF exD f
  | .nil => by simp [localCleanedMap, localPruneDirs, localCleanedForest]
  | .cons n t rest => by
    have ih := localPruneDirs_cleaned exF exD p rest
    rw [localCleanedMap, localPruneDirs, localCleanedForest]
    cases hm : matches_any n exD
    · cases he : (localCleanedTree exF exD t).isEmptyDir
      · simp [hm, he, ih]
      · simp [hm, he, ih]
    · simp [hm, ih]

mutual
theorem localWalkTree_cleaned (exF exD : List String) : ∀ (p : Path) (t : FsTree),
    (localWalkTree exF exD false (fun _ => FileOutcome.ok) (fun _ => true) p t).tree
      = localCleanedTree exF exD t
  | p, .node files dirs => by
    have hc := localWalkForest_cleaned exF exD p dirs
    simp only [localWalkTree, localCleanedTree]
    rw [localDeleteFiles_wet_files, hc, localPruneDirs_cleaned]
theorem localWalkForest_cleaned (exF exD : List String) :
    ∀ (p : Path) (f : FsForest),
    (localWalkForest exF exD false (fun _ => FileOutcome.ok) (fun _ => true) p f).forest
      = localCleanedMap exF exD f
  | _, .nil => by simp [localWalkForest, localCleanedMap]
  | p, .cons n t rest => by
    have h1 := localWalkTree_cleaned exF exD (p ++ [n]) t
    have h2 := localWalkForest_cleaned exF exD p rest
    simp only [localWalkForest, localCleanedMap]
    rw [h1, h2]
end

theorem cleanedForest_findDir_filter (exF exD : List String) (d : String)
    (rest : Path)
    (H : ∀ (t : FsTree) (fs : List String) (ds : FsForest),
      FsTree.dirAt rest (localCleanedTree exF exD t) = some (.node fs ds) →
      fs.all (fun fn => matches_any fn exF) = true) :
    ∀ (f : FsForest) (fs : List String) (ds : FsForest),
    FsForest.findDir d rest (localCleanedForest exF exD f) = some (.node fs ds) →
    fs.all (fun fn => matches_any fn exF) = true
  | .nil => by
    intro fs ds h
    rw [localCleanedForest, FsForest.findDir] at h
    cases h
  | .cons n t rest' => by
    intro fs ds h
    rw [localCleanedForest] at h
    by_cases hcond :
        (!(matches_any n exD) && (localCleanedTree exF exD t).isEmptyDir) = true
    · rw [if_pos hcond] at h
      exact cleanedForest_findDir_filter exF exD d rest H rest' fs ds h
    · rw [if_neg hcond, FsForest.findDir] at h
      by_cases hnd : n = d
      · rw [if_pos hnd] at h
        exact H t fs ds h
      · rw [if_neg hnd] at h
        exact cleanedForest_findDir_filter exF exD d rest H rest' fs ds h

theorem cleanedTree_dirAt_filter (exF exD : List String) :
    ∀ (q : Path) (t : FsTree) (fs : List String) (ds : FsForest),
    FsTree.dirAt q (localCleanedTree exF exD t) = some (.node fs ds) →
    fs.all (fun fn => matches_any fn exF) = true
  | [] => by
    intro t fs ds h
    cases t with
    | node files dirs =>
      rw [localCleanedTree, FsTree.dirAt] at h
      have h' := Option.some_inj.1 h
      injection h' with hfs hds
      subst hfs
      simp only [List.all_eq_true]
      intro fn hfn
      exact (List.mem_filter.1 hfn).2
  | d :: rest => by
    intro t fs ds h
    cases t with
    | node files dirs =>
      rw [localCleanedTree, FsTree.dirAt] at h
      exact cleanedForest_findDir_filter exF exD d rest
        (cleanedTree_dirAt_filter exF exD rest) dirs fs ds h

theorem cleanedForest_findDir_pres (exF exD : List String) (d : String)
    (rest : Path) (hrest : rest ≠ [])
    (H : ∀ (t sub : FsTree), FsTree.dirAt rest t = some sub →
      ∃ sub', FsTree.dirAt rest (localCleanedTree exF exD t) = some sub') :
    ∀ (f : FsForest) (sub : FsTree),
    FsForest.findDir d rest f = some sub →
    ∃ sub', FsForest.findDir d rest (localCleanedForest exF exD f) = some sub'
  | .nil => by
    intro sub h
    rw [FsForest.findDir] at h
    cases h
  | .cons m t rest' => by
    intro sub h
    rw [FsForest.findDir] at h
    rw [localCleanedForest]
    by_cases hmd : m = d
    · rw [if_pos hmd] at h
      obtain ⟨sub', hsub'⟩ := H t sub h
      have hne : (localCleanedTree exF exD t).isEmptyDir = false := by
        cases rest with
        | nil => exact absurd rfl hrest
        | cons r0 rs => exact dirAt_cons_nonempty r0 rs _ _ hsub'
      rw [if_neg (by simp [hne])]
      rw [FsForest.findDir, if_pos hmd]
      exact ⟨sub', hsub'⟩
    · rw [if_neg hmd] at h
      by_cases hcond :
          (!(matches_any m exD) && (localCleanedTree exF exD t).isEmptyDir) = true
      · rw [if_pos hcond]
        exact cleanedForest_findDir_pres exF exD d rest hrest H rest' sub h
      · rw [if_neg hcond]
        rw [FsForest.findDir, if_neg hmd]
        exact cleanedForest_findDir_pres exF exD d rest hrest H rest' sub h

theorem cleanedForest_findDir_excl (exF exD : List String) (n : String)
    (hn : matches_any n exD = true) :
    ∀ (f : FsForest) (sub : FsTree),
    FsForest.findDir n [] f = some sub →
    ∃ sub', FsForest.findDir n [] (localCleanedForest exF exD f) = some sub'
  | .nil => by
    intro sub h
    rw [FsForest.findDir] at h
    cases h
  | .cons m t rest' => by
    intro sub h
    rw [FsForest.findDir] at h
    rw [localCleanedForest]
    by_cases hmd : m = n
    · rw [if_neg (by simp [hmd, hn])]
      rw [FsForest.findDir, if_pos hmd]
      exact ⟨localCleanedTree exF exD t, by rw [FsTree.dirAt]⟩
    · rw [if_neg hmd] at h
      by_cases hcond :
          (!(matches_any m exD) && (localCleanedTree exF exD t).isEmptyDir) = true
      · rw [if_pos hcond]
        exact cleanedForest_findDir_excl exF exD n hn rest' sub h
      · rw [if_neg hcond]
        rw [FsForest.findDir, if_neg hmd]
        exact cleanedForest_findDir_excl exF exD n hn rest' sub h

theorem cleanedTree_preserves (exF exD : List String) (n : String)
    (hn : matches_any n exD = true) :
    ∀ (q : Path) (t sub : FsTree),
    FsTree.dirAt (q ++ [n]) t = some sub →
    ∃ sub', FsTree.dirAt (q ++ [n]) (localCleanedTree exF exD t) = some sub'
  | [] => by
    intro t sub h
    cases t with
    | node files dirs =>
      simp only [List.nil_append] at h ⊢
      rw [FsTree.dirAt] at h
      rw [localCleanedTree, FsTree.dirAt]
      exact cleanedForest_findDir_excl exF exD n hn dirs sub h
  | d :: q' => by
    intro t sub h
    cases t with
    | node files dirs =>
      simp only [List.cons_append] at h ⊢
      rw [FsTree.dirAt] at h
      rw [localCleanedTree, FsTree.dirAt]
      exact cleanedForest_findDir_pres exF exD d (q' ++ [n]) (by simp)
        (cleanedTree_preserves exF exD n hn q') dirs sub h

/-- C5: a fault-free non-dry local run (a) produces exactly
`localCleanedTree`, whose file filter consults only `exclude_files` in
every directory -- traversal reaches and empties even directories whose
name matches `exclude_folders`; (b) consequently every file surviving
anywhere in the result matches `exclude_files`; and (c) a directory whose
basename matches `exclude_folders` is never removed: it is still present
at its path in the result. -/
theorem claim_C5 (exF exD : List String) (t : FsTree) :
    ((local_cleanup_folder exF exD false (fun _ => FileOutcome.ok)
        (fun _ => true) t).tree = localCleanedTree exF exD t) ∧
    (∀ (q : Path) (fs : List String) (ds : FsForest),
      FsTree.dirAt q (local_cleanup_folder exF exD false (fun _ => FileOutcome.ok)
          (fun _ => true) t).tree = some (.node fs ds) →
      fs.all (fun fn => matches_any fn exF) = true) ∧
    (∀ (q : Path) (n : String) (sub : FsTree),
      FsTree.dirAt (q ++ [n]) t = some sub → matches_any n exD = true →
      ∃ sub', FsTree.dirAt (q ++ [n])
        (local_cleanup_folder exF exD false (fun _ => FileOutcome.ok)
          (fun _ => true) t).tree = some sub') := by
  have heq : (local_cleanup_folder exF exD false (fun _ => FileOutcome.ok)
      (fun _ => true) t).tree = localCleanedTree exF exD t :=
    localWalkTree_cleaned exF exD [] t
  refine ⟨heq, ?_, ?_⟩
  · intro q fs ds h
    rw [heq] at h
    exact cleanedTree_dirAt_filter exF exD q t fs ds h
  · intro q n sub h hn
    rw [heq]
    exact cleanedTree_preserves exF exD n hn q t sub h

/-- C5 witness: with `exclude_folders = ["config"]` on a tree whose only
subdirectory `config` holds `inner.log`, the run empties `config` but
leaves the directory itself in place. -/
theorem claim_C5_witness :
    ((local_cleanup_folder [] ["config"] false (fun _ => FileOutcome.ok)
        (fun _ => true) treeC5).tree = localCleanedTree [] ["config"] treeC5) ∧
    (List.all [] (fun fn => matches_any fn []) = true) ∧
    (∃ sub', FsTree.dirAt ([] ++ ["config"])
        (local_cleanup_folder [] ["config"] false (fun _ => FileOutcome.ok)
          (fun _ => true) treeC5).tree = some sub') :=
  ⟨(claim_C5 [] ["config"] treeC5).1,
   (claim_C5 [] ["config"] treeC5).2.1 ["config"] [] .nil (by decide),
   (claim_C5 [] ["config"] treeC5).2.2 [] "config"
     (.node ["inner.log"] .nil) (by decide) (by decide)⟩

/-! ## Warning discipline and event presence (towards C7 and C10) -/

theorem localDeleteFiles_warnOk (exF : List String) (dry : Bool)
    (uo : Path → FileOutcome) (p : Path) (l : List String) :
    ((localDeleteFiles exF dry uo p l).evs).all (localWarnOk uo) = true := by
  induction l with
  | nil => simp [localDeleteFiles]
  | cons fn rest ih =>
    cases hm : matches_any fn exF
    · cases hdry : dry
      · subst hdry
        cases huo : uo (p ++ [fn]) <;>
          simp [localDeleteFiles, hm, huo, localWarnOk, ih]
      · subst hdry
        simp [localDeleteFiles, hm, localWarnOk, ih]
    · simp [localDeleteFiles, hm, ih]

theorem localPruneDirs_warnOk (exD : List String) (dry : Bool)
    (uo : Path → FileOutcome) (ro : Path → Bool) (p : Path) :
    ∀ f : FsForest,
    ((localPruneDirs exD dry ro p f).evs).all (localWarnOk uo) = true
  | .nil => by simp [localPruneDirs]
  | .cons n t rest => by
    have ih := localPruneDirs_warnOk exD dry uo ro p rest
    cases hm : matches_any n exD
    · cases he : t.isEmptyDir
      · simp [localPruneDirs, hm, he, localWarnOk, ih]
      · cases hdry : dry
        · subst hdry
          cases hro : ro (p ++ [n]) <;>
            simp [localPruneDirs, hm, he, hro, localWarnOk, ih]
        · subst hdry
          simp [localPruneDirs, hm, he, localWarnOk, ih]
    · simp [localPruneDirs, hm, ih]

mutual
theorem localWalkTree_warnOk (exF exD : List String) (dry : Bool)
    (uo : Path → FileOutcome) (ro : Path → Bool) : ∀ (p : Path) (t : FsTree),
    ((localWalkTree exF exD dry uo ro p t).evs).all (localWarnOk uo) = true
  | p, .node files dirs => by
    have hc := localWalkForest_warnOk exF exD dry uo ro p dirs
    have hf := localDeleteFiles_warnOk exF dry uo p files
    have hp := localPruneDirs_warnOk exD dry uo ro p
      (localWalkForest exF exD dry uo ro p dirs).forest
    simp only [localWalkTree, List.all_append]
    simp [hc, hf, hp]
theorem localWalkForest_warnOk (exF exD : List String) (dry : Bool)
    (uo : Path → FileOutcome) (ro : Path → Bool) : ∀ (p : Path) (f : FsForest),
    ((localWalkForest exF exD dry uo ro p f).evs).all (localWarnOk uo) = true
  | _, .nil => by simp [localWalkForest]
  | p, .cons n t rest => by
    have h1 := localWalkTree_warnOk exF exD dry uo ro (p ++ [n]) t
    have h2 := localWalkForest_warnOk exF exD dry uo ro p rest
    simp only [localWalkForest, List.all_append]
    simp [h1, h2]
end

theorem ftpDeleteFiles_warnOk (exF : List String) (dry : Bool)
    (lo fo : Path → Bool) (p : Path) (l : List String) :
    ((ftpDeleteFiles exF dry fo p l).evs).all (ftpWarnOk lo fo) = true := by
  induction l with
  | nil => simp [ftpDeleteFiles]
  | cons fn rest ih =>
    cases hm : matches_any fn exF
    · cases hdry : dry
      · subst hdry
        cases hfo : fo (p ++ [fn]) <;>
          simp [ftpDeleteFiles, hm, hfo, ftpWarnOk, ih]
      · subst hdry
        simp [ftpDeleteFiles, hm, ftpWarnOk, ih]
    · simp [ftpDeleteFiles, hm, ih]

mutual
theorem ftpWalkTree_warnOk (exF exD : List String) (dry : Bool)
    (lo lo2 fo rmo : Path → Bool) (root : Path) : ∀ (p : Path) (t : FsTree),
    ((ftpWalkTree exF exD dry lo lo2 fo rmo root p t).evs).all
      (ftpWarnOk lo fo) = true
  | p, .node files dirs => by
    have hc := ftpWalkForest_warnOk exF exD dry lo lo2 fo rmo root p dirs
    have hf := ftpDeleteFiles_warnOk exF dry lo fo p files
    cases hlo : lo p
    · simp [ftpWalkTree, hlo, ftpWarnOk]
    · simp only [ftpWalkTree, hlo]
      split_ifs <;>
        simp [List.all_append, hc, hf, ftpWarnOk]
theorem ftpWalkForest_warnOk (exF exD : List String) (dry : Bool)
    (lo lo2 fo rmo : Path → Bool) (root : Path) : ∀ (p : Path) (f : FsForest),
    ((ftpWalkForest exF exD dry lo lo2 fo rmo root p f).evs).all
      (ftpWarnOk lo fo) = true
  | _, .nil => by simp [ftpWalkForest]
  | p, .cons n t rest => by
    have h1 := ftpWalkTree_warnOk exF exD dry lo lo2 fo rmo root (p ++ [n]) t
    have h2 := ftpWalkForest_warnOk exF exD dry lo lo2 fo rmo root p rest
    cases hm : matches_any n exD
    · cases h1t : (ftpWalkTree exF exD dry lo lo2 fo rmo root (p ++ [n]) t).tree <;>
        simp_all [ftpWalkForest, hm, h1t, List.all_append]
    · simp [ftpWalkForest, hm, h2]
end

/-- The files loop logs every non-excluded file: an info line when the
unlink does not raise (also when the file was already gone), a warning when
it raises. -/
theorem localDeleteFiles_mem (exF : List String) (uo : Path → FileOutcome)
    (p : Path) (fn : String) (hm : matches_any fn exF = false) :
    ∀ l : List String, fn ∈ l →
    ((uo (p ++ [fn]) ≠ FileOutcome.err →
        Ev.infoDelFile (p ++ [fn]) ∈ (localDeleteFiles exF false uo p l).evs) ∧
      (uo (p ++ [fn]) = FileOutcome.err →
        Ev.warnDelFile (p ++ [fn]) ∈ (localDeleteFiles exF false uo p l).evs)) := by
  intro l
  induction l with
  | nil => intro h; cases h
  | cons g rest ih =>
    intro hmem
    rcases List.mem_cons.1 hmem with rfl | hmem'
    · constructor
      · intro hne
        cases huo : uo (p ++ [fn]) <;>
          simp_all [localDeleteFiles, hm, huo]
      · intro he
        simp [localDeleteFiles, hm, he]
    · have ihm := ih hmem'
      constructor
      · intro hne
        have := ihm.1 hne
        cases hmg : matches_any g exF
        · cases huo : uo (p ++ [g]) <;>
            simp [localDeleteFiles, hmg, huo, this]
        · simp [localDeleteFiles, hmg, this]
      · intro he
        have := ihm.2 he
        cases hmg : matches_any g exF
        · cases huo : uo (p ++ [g]) <;>
            simp [localDeleteFiles, hmg, huo, this]
        · simp [localDeleteFiles, hmg, this]

/-- Events of the files pass of a directory appear in its walk's trace. -/
theorem localWalkTree_files_sub (exF exD : List String) (dry : Bool)
    (uo : Path → FileOutcome) (ro : Path → Bool) (p : Path)
    (files : List String) (dirs : FsForest) (e : Ev)
    (he : e ∈ (localDeleteFiles exF dry uo p files).evs) :
    e ∈ (localWalkTree exF exD dry uo ro p (.node files dirs)).evs := by
  simp only [localWalkTree, List.mem_append]
  exact Or.inl (Or.inr he)

/-- Events of the walk of a subdirectory (reached via `findDir`) appear in
the surrounding forest walk's trace. -/
theorem walkForest_mem_of_findDir (exF exD : List String) (dry : Bool)
    (uo : Path → FileOutcome) (ro : Path → Bool) (d : String) (rest : Path)
    (p : Path)
    (H : ∀ (t1 sub : FsTree), FsTree.dirAt rest t1 = some sub →
      ∀ e, e ∈ (localWalkTree exF exD dry uo ro ((p ++ [d]) ++ rest) sub).evs →
        e ∈ (localWalkTree exF exD dry uo ro (p ++ [d]) t1).evs) :
    ∀ (f : FsForest) (sub : FsTree), FsForest.findDir d rest f = some sub →
    ∀ e, e ∈ (localWalkTree exF exD dry uo ro ((p ++ [d]) ++ rest) sub).evs →
      e ∈ (localWalkForest exF exD dry uo ro p f).evs
  | .nil => by
    intro sub h
    rw [FsForest.findDir] at h
    cases h
  | .cons n t rest' => by
    intro sub h e he
    rw [FsForest.findDir] at h
    by_cases hnd : n = d
    · rw [if_pos hnd] at h
      have hmem := H t sub h e he
      rw [← hnd] at hmem
      simp only [localWalkForest, List.mem_append]
      exact Or.inl hmem
    · rw [if_neg hnd] at h
      have hmem := walkForest_mem_of_findDir exF exD dry uo ro d rest p H
        rest' sub h e he
      simp only [localWalkForest, List.mem_append]
      exact Or.inr hmem

/-- Events of the walk of any subtree appear in the whole walk's trace:
the local traversal descends into every directory. -/
theorem localWalkTree_mono (exF exD : List String) (dry : Bool)
    (uo : Path → FileOutcome) (ro : Path → Bool) :
    ∀ (q p : Path) (t sub : FsTree), FsTree.dirAt q t = some sub →
    ∀ e, e ∈ (localWalkTree exF exD dry uo ro (p ++ q) sub).evs →
      e ∈ (localWalkTree exF exD dry uo ro p t).evs
  | [], p, t, sub => by
    intro h e he
    rw [FsTree.dirAt] at h
    have h' := Option.some_inj.1 h
    subst h'
    simpa using he
  | d :: rest, p, t, sub => by
    intro h e he
    cases t with
    | node files dirs =>
      rw [FsTree.dirAt] at h
      rw [show p ++ (d :: rest) = (p ++ [d]) ++ rest from by simp] at he
      have hmem := walkForest_mem_of_findDir exF exD dry uo ro d rest p
        (fun t1 sub' h' =>
          localWalkTree_mono exF exD dry uo ro rest (p ++ [d]) t1 sub' h')
        dirs sub h e he
      simp only [localWalkTree, List.mem_append]
      exact Or.inl (Or.inl hmem)

/-! ## Claims C7 and C10 -/

/-- C7 counterexample: on a tree whose only entry is the empty directory
`d`, a non-dry run whose `rmdir` raises produces exactly the emptiness
probe and the failed removal call -- and no warning of any kind is logged,
contradicting the claim that a failed empty-directory removal logs a
warning. -/
theorem claim_C7_counterexample :
    (local_cleanup_folder [] [] false (fun _ => FileOutcome.ok)
        (fun _ => false) treeC7).evs
      = [Ev.probe ["d"] true, Ev.rmdirErr ["d"]] ∧
    ((local_cleanup_folder [] [] false (fun _ => FileOutcome.ok)
        (fun _ => false) treeC7).evs).all (fun e => !e.isWarn) = true := by
  decide

/-- C7 (amended): per-item mutation failures are non-fatal.  A failed file
deletion logs a warning, is not counted, and the walk continues (the files
counter keeps its per-item characterization under arbitrary failure
oracles, both backends).  A failed empty-directory removal also leaves the
run running, but is swallowed silently: the only warnings a local run emits
are file-deletion warnings for raising unlinks, and the only warnings a
remote run emits are file-deletion warnings for failing `DELE` calls and
listing warnings for directories whose opening `list_dir` failed. -/
theorem claim_C7 (exF exD : List String) (uo : Path → FileOutcome)
    (ro lo lo2 fo rmo : Path → Bool) (root : Path) (t : FsTree) :
    ((local_cleanup_folder exF exD false uo ro t).nf
      = localAttemptTree exF false uo [] t) ∧
    (∀ (q : Path) (fs : List String) (ds : FsForest) (fn : String),
      FsTree.dirAt q t = some (.node fs ds) → fn ∈ fs →
      matches_any fn exF = false → uo (q ++ [fn]) = FileOutcome.err →
      Ev.warnDelFile (q ++ [fn]) ∈ (local_cleanup_folder exF exD false uo ro t).evs) ∧
    (((local_cleanup_folder exF exD false uo ro t).evs).all (localWarnOk uo)
      = true) ∧
    ((ftp_cleanup_folder exF exD false lo lo2 fo rmo root t).nf
      = ftpAttemptTree exF exD false lo fo root t) ∧
    (((ftp_cleanup_folder exF exD false lo lo2 fo rmo root t).evs).all
      (ftpWarnOk lo fo) = true) := by
  refine ⟨localWalkTree_nf exF exD false uo ro [] t, ?_, ?_, ?_, ?_⟩
  · intro q fs ds fn hq hfn hm huo
    have hpresent := (localDeleteFiles_mem exF uo q fn hm fs hfn).2 huo
    have hin := localWalkTree_files_sub exF exD false uo ro q fs ds _ hpresent
    have := localWalkTree_mono exF exD false uo ro q [] t (.node fs ds) hq _
      (by simpa using hin)
    exact this
  · exact localWalkTree_warnOk exF exD false uo ro [] t
  · exact ftpWalkTree_nf exF exD false lo lo2 fo rmo root root t
  · exact ftpWalkTree_warnOk exF exD false lo lo2 fo rmo root root t

/-- C7 witness: one file whose deletion raises -- the warning is in the
trace, the counter stays at zero, and the warn-discipline holds. -/
theorem claim_C7_witness :
    ((local_cleanup_folder ["*.json"] [] false (fun _ => FileOutcome.err)
        (fun _ => true) (.node ["a.log"] .nil)).nf
      = localAttemptTree ["*.json"] false (fun _ => FileOutcome.err) []
          (.node ["a.log"] .nil)) ∧
    Ev.warnDelFile ([] ++ ["a.log"]) ∈
      (local_cleanup_folder ["*.json"] [] false (fun _ => FileOutcome.err)
        (fun _ => true) (.node ["a.log"] .nil)).evs :=
  ⟨(claim_C7 ["*.json"] [] (fun _ => FileOutcome.err) (fun _ => true)
      (fun _ => true) (fun _ => true) (fun _ => true) (fun _ => true) []
      (.node ["a.log"] .nil)).1,
   (claim_C7 ["*.json"] [] (fun _ => FileOutcome.err) (fun _ => true)
      (fun _ => true) (fun _ => true) (fun _ => true) (fun _ => true) []
      (.node ["a.log"] .nil)).2.1 [] ["a.log"] .nil "a.log" (by decide)
      (by decide) (by decide) (by decide)⟩

/-- C10: the local files counter counts attempted non-excluded files, not
files actually removed: an unlink finding the file already gone (deleted
externally between listing and unlink, `missing_ok=True`) does not raise,
is logged as a normal deletion, is never logged as a warning, and is
counted. -/
theorem claim_C10 (exF exD : List String) (uo : Path → FileOutcome)
    (ro : Path → Bool) (t : FsTree) :
    ((local_cleanup_folder exF exD false uo ro t).nf
      = localAttemptTree exF false uo [] t) ∧
    (∀ (q : Path) (fs : List String) (ds : FsForest) (fn : String),
      FsTree.dirAt q t = some (.node fs ds) → fn ∈ fs →
      matches_any fn exF = false → uo (q ++ [fn]) = FileOutcome.missing →
      Ev.infoDelFile (q ++ [fn]) ∈ (local_cleanup_folder exF exD false uo ro t).evs) ∧
    (∀ pw : Path, uo pw ≠ FileOutcome.err →
      Ev.warnDelFile pw ∉ (local_cleanup_folder exF exD false uo ro t).evs) := by
  refine ⟨localWalkTree_nf exF exD false uo ro [] t, ?_, ?_⟩
  · intro q fs ds fn hq hfn hm huo
    have hpresent := (localDeleteFiles_mem exF uo q fn hm fs hfn).1
      (by rw [huo]; intro hc; cases hc)
    have hin := localWalkTree_files_sub exF exD false uo ro q fs ds _ hpresent
    exact localWalkTree_mono exF exD false uo ro q [] t (.node fs ds) hq _
      (by simpa using hin)
  · intro pw hne hmem
    have hall := localWalkTree_warnOk exF exD false uo ro [] t
    rw [List.all_eq_true] at hall
    have := hall _ hmem
    rw [localWarnOk] at this
    exact hne (of_decide_eq_true this)

/-- C10 witness: a single non-excluded file whose unlink finds it already
missing is counted, logged as a normal deletion, and not warned about. -/
theorem claim_C10_witness :
    ((local_cleanup_folder [] [] false (fun _ => FileOutcome.missing)
        (fun _ => true) (.node ["a.log"] .nil)).nf
      = localAttemptTree [] false (fun _ => FileOutcome.missing) []
          (.node ["a.log"] .nil)) ∧
    Ev.infoDelFile ([] ++ ["a.log"]) ∈
      (local_cleanup_folder [] [] false (fun _ => FileOutcome.missing)
        (fun _ => true) (.node ["a.log"] .nil)).evs ∧
    Ev.warnDelFile ["a.log"] ∉
      (local_cleanup_folder [] [] false (fun _ => FileOutcome.missing)
        (fun _ => true) (.node ["a.log"] .nil)).evs :=
  ⟨(claim_C10 [] [] (fun _ => FileOutcome.missing) (fun _ => true)
      (.node ["a.log"] .nil)).1,
   (claim_C10 [] [] (fun _ => FileOutcome.missing) (fun _ => true)
      (.node ["a.log"] .nil)).2.1 [] ["a.log"] .nil "a.log" (by decide)
      (by decide) (by decide) (by decide),
   (claim_C10 [] [] (fun _ => FileOutcome.missing) (fun _ => true)
      (.node ["a.log"] .nil)).2.2 ["a.log"] (by decide)⟩

/-! ## Claim C4: remote traversal never enters excluded folders -/

theorem compsClean_append (exD : List String) (q : List String) (n : String) :
    compsClean exD (q ++ [n]) = (compsClean exD q && !matches_any n exD) := by
  simp [compsClean, List.all_append]

theorem underCleanDir_append (exD : List String) (root : Path) (q : List String)
    (hq : compsClean exD q = true) :
    underCleanDir exD root (root ++ q) = true := by
  have h1 : List.isPrefixOf root (root ++ q) = true := by
    rw [List.isPrefixOf_iff_prefix]
    exact List.prefix_append root q
  rw [underCleanDir]
  simp [h1, List.drop_left, hq]

theorem underCleanParent_append (exD : List String) (root : Path)
    (q : List String) (fn : String) (hq : compsClean exD q = true) :
    underCleanParent exD root (root ++ (q ++ [fn])) = true := by
  have h1 : List.isPrefixOf root (root ++ (q ++ [fn])) = true := by
    rw [List.isPrefixOf_iff_prefix]
    exact List.prefix_append root (q ++ [fn])
  rw [underCleanParent]
  simp [h1, List.drop_left, List.dropLast_concat, hq]

theorem ftpDeleteFiles_clean (exF exD : List String) (dry : Bool)
    (fo : Path → Bool) (root : Path) (q : List String)
    (hq : compsClean exD q = true) (l : List String) :
    ((ftpDeleteFiles exF dry fo (root ++ q) l).evs).all (ftpEvClean exD root)
      = true := by
  induction l with
  | nil => simp [ftpDeleteFiles]
  | cons fn rest ih =>
    have hpar : underCleanParent exD root (root ++ (q ++ [fn])) = true :=
      underCleanParent_append exD root q fn hq
    cases hm : matches_any fn exF
    · cases hdry : dry
      · subst hdry
        cases hfo : fo (root ++ (q ++ [fn])) <;>
          simp [ftpDeleteFiles, hm, hfo, ftpEvClean, hpar, ih]
      · subst hdry
        simp [ftpDeleteFiles, hm, ftpEvClean, ih]
    · simp [ftpDeleteFiles, hm, ih]

mutual
theorem ftpWalkTree_clean (exF exD : List String) (dry : Bool)
    (lo lo2 fo rmo : Path → Bool) (root : Path) : ∀ (q : List String) (t : FsTree),
    compsClean exD q = true →
    ((ftpWalkTree exF exD dry lo lo2 fo rmo root (root ++ q) t).evs).all
      (ftpEvClean exD root) = true
  | q, .node files dirs => by
    intro hq
    have hud : underCleanDir exD root (root ++ q) = true :=
      underCleanDir_append exD root q hq
    have hc := ftpWalkForest_clean exF exD dry lo lo2 fo rmo root q dirs hq
    have hf := ftpDeleteFiles_clean exF exD dry fo root q hq files
    cases hlo : lo (root ++ q)
    · simp [ftpWalkTree, hlo, ftpEvClean, hud]
    · simp only [ftpWalkTree, hlo]
      split_ifs <;>
        simp [List.all_append, hc, hf, ftpEvClean, hud]
theorem ftpWalkForest_clean (exF exD : List String) (dry : Bool)
    (lo lo2 fo rmo : Path → Bool) (root : Path) : ∀ (q : List String) (f : FsForest),
    compsClean exD q = true →
    ((ftpWalkForest exF exD dry lo lo2 fo rmo root (root ++ q) f).evs).all
      (ftpEvClean exD root) = true
  | _, .nil => by intro _; simp [ftpWalkForest]
  | q, .cons n t rest => by
    intro hq
    have h2 := ftpWalkForest_clean exF exD dry lo lo2 fo rmo root q rest hq
    cases hm : matches_any n exD
    · have hqn : compsClean exD (q ++ [n]) = true := by
        rw [compsClean_append, hq, hm]
        rfl
      have h1 := ftpWalkTree_clean exF exD dry lo lo2 fo rmo root (q ++ [n]) t hqn
      rw [← List.append_assoc] at h1
      cases h1t :
          (ftpWalkTree exF exD dry lo lo2 fo rmo root ((root ++ q) ++ [n]) t).tree <;>
        simp_all [ftpWalkForest, hm, h1t, List.all_append]
    · simp [ftpWalkForest, hm, h2]
end

/-- C4: every list call and removal attempt of a remote run targets a
directory whose entire chain of names below the root is free of
exclude-folder matches, and every file-deletion call sits directly inside
such a chain.  Hence no list, delete or remove call is ever issued at or
below a directory whose name matches `exclude_folders` (the excluded name
would be a component of the chain), and such a directory is never removed
(it would be the final component). -/
theorem claim_C4 (exF exD : List String) (dry : Bool)
    (lo lo2 fo rmo : Path → Bool) (root : Path) (t : FsTree) :
    ((ftp_cleanup_folder exF exD dry lo lo2 fo rmo root t).evs).all
      (ftpEvClean exD root) = true := by
  have h := ftpWalkTree_clean exF exD dry lo lo2 fo rmo root [] t (by rfl)
  rw [List.append_nil] at h
  exact h

/-! ## Claim C6: removal only after an adjacent empty check, never the root -/

theorem lastEv_nil (prev : Option Ev) : lastEv prev [] = prev := rfl

theorem lastEv_cons (prev : Option Ev) (e : Ev) (l : List Ev) :
    lastEv prev (e :: l) = lastEv (some e) l := by
  cases l with
  | nil => rfl
  | cons e2 l2 =>
    rw [lastEv, lastEv, List.getLast?_cons_cons]
    cases h : (e2 :: l2).getLast? with
    | none =>
      rw [List.getLast?_eq_none_iff] at h
      cases h
    | some x => rfl

theorem chainOk_append (adj : Option Ev → Ev → Bool) :
    ∀ (a : List Ev) (prev : Option Ev) (b : List Ev),
    chainOk adj prev (a ++ b)
      = (chainOk adj prev a && chainOk adj (lastEv prev a) b) := by
  intro a
  induction a with
  | nil => intro prev b; simp [chainOk, lastEv_nil]
  | cons e rest ih =>
    intro prev b
    rw [List.cons_append, chainOk, chainOk, lastEv_cons, ih, Bool.and_assoc]

theorem chainOk_of_all_adj (adj : Option Ev → Ev → Bool) :
    ∀ (l : List Ev), (∀ prev e, e ∈ l → adj prev e = true) →
    ∀ prev, chainOk adj prev l = true := by
  intro l
  induction l with
  | nil => intro _ prev; rfl
  | cons e rest ih =>
    intro h prev
    rw [chainOk, h prev e (List.mem_cons_self e rest),
      ih (fun pv e2 he2 => h pv e2 (List.mem_cons_of_mem e he2)) (some e)]
    rfl

theorem localAdj_of_not_rmdir (prev : Option Ev) (e : Ev)
    (h : e.isRmdirCall = false) : localAdj prev e = true := by
  cases e <;> first | rfl | (rw [Ev.isRmdirCall] at h; cases h)

theorem ftpAdj_of_not_rmdir (prev : Option Ev) (e : Ev)
    (h : e.isRmdirCall = false) : ftpAdj prev e = true := by
  cases e <;> first | rfl | (rw [Ev.isRmdirCall] at h; cases h)

theorem localDeleteFiles_no_rmdir (exF : List String) (dry : Bool)
    (uo : Path → FileOutcome) (p : Path) (l : List String) :
    ∀ e ∈ (localDeleteFiles exF dry uo p l).evs, e.isRmdirCall = false := by
  induction l with
  | nil => simp [localDeleteFiles]
  | cons fn rest ih =>
    intro e he
    cases hm : matches_any fn exF
    · cases hdry : dry
      · subst hdry
        rw [localDeleteFiles, hm] at he
        simp only [Bool.false_eq_true, if_false] at he
        cases huo : uo (p ++ [fn]) <;> rw [huo] at he <;>
          simp only [List.mem_cons] at he <;>
          rcases he with rfl | rfl | he <;>
          first | rfl | exact ih e he
      · subst hdry
        rw [localDeleteFiles, hm] at he
        simp only [Bool.false_eq_true, if_false, if_true, List.mem_cons] at he
        rcases he with rfl | he
        · rfl
        · exact ih e he
    · rw [localDeleteFiles, hm] at he
      simp only [if_true] at he
      exact ih e he

theorem ftpDeleteFiles_no_rmdir (exF : List String) (dry : Bool)
    (fo : Path → Bool) (p : Path) (l : List String) :
    ∀ e ∈ (ftpDeleteFiles exF dry fo p l).evs, e.isRmdirCall = false := by
  induction l with
  | nil => simp [ftpDeleteFiles]
  | cons fn rest ih =>
    intro e he
    cases hm : matches_any fn exF
    · cases hdry : dry
      · subst hdry
        rw [ftpDeleteFiles, hm] at he
        simp only [Bool.false_eq_true, if_false] at he
        cases hfo : fo (p ++ [fn]) <;> rw [hfo] at he <;>
          simp only [Bool.false_eq_true, if_false, if_true, List.mem_cons] at he <;>
          rcases he with rfl | rfl | he <;>
          first | rfl | exact ih e he
      · subst hdry
        rw [ftpDeleteFiles, hm] at he
        simp only [Bool.false_eq_true, if_false, if_true, List.mem_cons] at he
        rcases he with rfl | he
        · rfl
        · exact ih e he
    · rw [ftpDeleteFiles, hm] at he
      simp only [if_true] at he
      exact ih e he

theorem localPruneDirs_chain (exD : List String) (dry : Bool)
    (ro : Path → Bool) (p : Path) : ∀ (f : FsForest) (prev : Option Ev),
    chainOk localAdj prev (localPruneDirs exD dry ro p f).evs = true
  | .nil => by intro prev; rfl
  | .cons n t rest => by
    intro prev
    have ih := localPruneDirs_chain exD dry ro p rest
    cases hm : matches_any n exD
    · cases he : t.isEmptyDir
      · simp [localPruneDirs, hm, he, chainOk, localAdj, ih]
      · cases hdry : dry
        · subst hdry
          cases hro : ro (p ++ [n]) <;>
            simp [localPruneDirs, hm, he, hro, chainOk, localAdj, ih]
        · subst hdry
          simp [localPruneDirs, hm, he, chainOk, localAdj, ih]
    · simp [localPruneDirs, hm, ih]

mutual
theorem localWalkTree_chain (exF exD : List String) (dry : Bool)
    (uo : Path → FileOutcome) (ro : Path → Bool) :
    ∀ (p : Path) (t : FsTree) (prev : Option Ev),
    chainOk localAdj prev (localWalkTree exF exD dry uo ro p t).evs = true
  | p, .node files dirs => by
    intro prev
    have hc := localWalkForest_chain exF exD dry uo ro p dirs
    have hf := chainOk_of_all_adj localAdj _
      (fun pv e he => localAdj_of_not_rmdir pv e
        (localDeleteFiles_no_rmdir exF dry uo p files e he))
    have hp := localPruneDirs_chain exD dry ro p
      (localWalkForest exF exD dry uo ro p dirs).forest
    simp only [localWalkTree, chainOk_append]
    simp [hc, hf, hp]
theorem localWalkForest_chain (exF exD : List String) (dry : Bool)
    (uo : Path → FileOutcome) (ro : Path → Bool) :
    ∀ (p : Path) (f : FsForest) (prev : Option Ev),
    chainOk localAdj prev (localWalkForest exF exD dry uo ro p f).evs = true
  | _, .nil => by intro prev; rfl
  | p, .cons n t rest => by
    intro prev
    have h1 := localWalkTree_chain exF exD dry uo ro (p ++ [n]) t
    have h2 := localWalkForest_chain exF exD dry uo ro p rest
    simp only [localWalkForest, chainOk_append]
    simp [h1, h2]
end

mutual
theorem ftpWalkTree_chain (exF exD : List String) (dry : Bool)
    (lo lo2 fo rmo : Path → Bool) (root : Path) :
    ∀ (p : Path) (t : FsTree) (prev : Option Ev),
    chainOk ftpAdj prev (ftpWalkTree exF exD dry lo lo2 fo rmo root p t).evs = true
  | p, .node files dirs => by
    intro prev
    have hc := ftpWalkForest_chain exF exD dry lo lo2 fo rmo root p dirs
    have hf := chainOk_of_all_adj ftpAdj _
      (fun pv e he => ftpAdj_of_not_rmdir pv e
        (ftpDeleteFiles_no_rmdir exF dry fo p files e he))
    cases hlo : lo p
    · simp [ftpWalkTree, hlo, chainOk, ftpAdj]
    · simp only [ftpWalkTree, hlo]
      by_cases hroot : p = root
      · subst hroot
        simp only [if_pos rfl]
        simp [chainOk, ftpAdj, chainOk_append, hc, hf]
      · rw [if_neg hroot]
        cases hlo2 : lo2 p
        · simp only [Bool.false_eq_true, if_false]
          simp [chainOk, ftpAdj, chainOk_append, hc, hf]
        · simp only [if_true]
          cases hemp : (FsTree.node (ftpDeleteFiles exF dry fo p files).files
              (ftpWalkForest exF exD dry lo lo2 fo rmo root p dirs).forest).listing.isEmpty
          · simp only [Bool.false_eq_true, if_false]
            simp [chainOk, ftpAdj, chainOk_append, hc, hf]
          · have hemp' : (FsTree.node (ftpDeleteFiles exF dry fo p files).files
                (ftpWalkForest exF exD dry lo lo2 fo rmo root p dirs).forest).listing
                = [] := by rwa [List.isEmpty_iff] at hemp
            cases hdry : dry
            · subst hdry
              cases hrmo : rmo p <;>
                simp [hemp, hemp', hrmo, chainOk, ftpAdj, chainOk_append, hc, hf]
            · subst hdry
              simp [hemp, hemp', chainOk, ftpAdj, chainOk_append, hc, hf]
theorem ftpWalkForest_chain (exF exD : List String) (dry : Bool)
    (lo lo2 fo rmo : Path → Bool) (root : Path) :
    ∀ (p : Path) (f : FsForest) (prev : Option Ev),
    chainOk ftpAdj prev (ftpWalkForest exF exD dry lo lo2 fo rmo root p f).evs = true
  | _, .nil => by intro prev; rfl
  | p, .cons n t rest => by
    intro prev
    have h1 := ftpWalkTree_chain exF exD dry lo lo2 fo rmo root (p ++ [n]) t
    have h2 := ftpWalkForest_chain exF exD dry lo lo2 fo rmo root p rest
    cases hm : matches_any n exD
    · cases h1t : (ftpWalkTree exF exD dry lo lo2 fo rmo root (p ++ [n]) t).tree <;>
        simp_all [ftpWalkForest, hm, h1t, chainOk_append]
    · simp [ftpWalkForest, hm, h2]
end

/-- The prune loop's removal attempts target entries of the walked
directory: paths strictly longer than the directory's own. -/
theorem localPruneDirs_rmdir_deep (exD : List String) (dry : Bool)
    (ro : Path → Bool) (p : Path) : ∀ (f : FsForest) (e : Ev),
    e ∈ (localPruneDirs exD dry ro p f).evs → e.isRmdirCall = true →
    p.length < e.path.length
  | .nil => by
    intro e he
    rw [localPruneDirs] at he
    cases he
  | .cons n t rest => by
    intro e he hr
    have ih := localPruneDirs_rmdir_deep exD dry ro p rest
    cases hm : matches_any n exD
    · cases hemp : t.isEmptyDir
      · simp only [localPruneDirs, hm, hemp, Bool.false_eq_true, if_false,
          List.mem_cons] at he
        rcases he with rfl | he'
        · cases hr
        · exact ih e he' hr
      · cases hdry : dry
        · subst hdry
          cases hro : ro (p ++ [n])
          · simp only [localPruneDirs, hm, hemp, hro, Bool.false_eq_true,
              if_false, if_true, List.mem_cons] at he
            rcases he with rfl | rfl | he'
            · cases hr
            · rw [Ev.path]
              simp
            · exact ih e he' hr
          · simp only [localPruneDirs, hm, hemp, hro, Bool.false_eq_true,
              if_false, if_true, List.mem_cons] at he
            rcases he with rfl | rfl | rfl | he'
            · cases hr
            · rw [Ev.path]
              simp
            · cases hr
            · exact ih e he' hr
        · subst hdry
          simp only [localPruneDirs, hm, hemp, Bool.false_eq_true, if_false,
            if_true, List.mem_cons] at he
          rcases he with rfl | rfl | he'
          · cases hr
          · cases hr
          · exact ih e he' hr
    · simp only [localPruneDirs, hm, if_true] at he
      exact ih e he hr

mutual
/-- Local removal attempts happen strictly below the walked directory, so
never at the walk's root. -/
theorem localWalkTree_rmdir_deep (exF exD : List String) (dry : Bool)
    (uo : Path → FileOutcome) (ro : Path → Bool) :
    ∀ (p : Path) (t : FsTree) (e : Ev),
    e ∈ (localWalkTree exF exD dry uo ro p t).evs → e.isRmdirCall = true →
    p.length < e.path.length
  | p, .node files dirs => by
    intro e he hr
    rw [localWalkTree] at he
    simp only [List.mem_append] at he
    rcases he with (he | he) | he
    · exact localWalkForest_rmdir_deep exF exD dry uo ro p dirs e he hr
    · rw [localDeleteFiles_no_rmdir exF dry uo p files e he] at hr
      cases hr
    · exact localPruneDirs_rmdir_deep exD dry ro p _ e he hr
theorem localWalkForest_rmdir_deep (exF exD : List String) (dry : Bool)
    (uo : Path → FileOutcome) (ro : Path → Bool) :
    ∀ (p : Path) (f : FsForest) (e : Ev),
    e ∈ (localWalkForest exF exD dry uo ro p f).evs → e.isRmdirCall = true →
    p.length < e.path.length
  | _, .nil => by
    intro e he
    rw [localWalkForest] at he
    cases he
  | p, .cons n t rest => by
    intro e he hr
    rw [localWalkForest] at he
    simp only [List.mem_append] at he
    rcases he with he | he
    · have := localWalkTree_rmdir_deep exF exD dry uo ro (p ++ [n]) t e he hr
      simp only [List.length_append, List.length_cons, List.length_nil] at this
      omega
    · exact localWalkForest_rmdir_deep exF exD dry uo ro p rest e he hr
end

mutual
/-- Remote removal attempts only ever target a directory that is not the
job root (the `rdir != remote_folder` guard). -/
theorem ftpWalkTree_rmdir_notroot (exF exD : List String) (dry : Bool)
    (lo lo2 fo rmo : Path → Bool) (root : Path) :
    ∀ (p : Path) (t : FsTree) (e : Ev),
    e ∈ (ftpWalkTree exF exD dry lo lo2 fo rmo root p t).evs →
    e.isRmdirCall = true → e.path ≠ root
  | p, .node files dirs => by
    intro e he hr
    cases hlo : lo p
    · rw [ftpWalkTree, hlo] at he
      simp only [Bool.false_eq_true, if_false] at he
      rcases List.mem_cons.1 he with rfl | he'
      · cases hr
      · rcases List.mem_cons.1 he' with rfl | he''
        · cases hr
        · cases he''
    · rw [ftpWalkTree, hlo] at he
      simp only [if_true] at he
      by_cases hroot : p = root
      · rw [if_pos hroot] at he
        rcases List.mem_cons.1 he with rfl | he'
        · cases hr
        · simp only [List.mem_append] at he'
          rcases he' with he'' | he''
          · exact ftpWalkForest_rmdir_notroot exF exD dry lo lo2 fo rmo root
              p dirs e he'' hr
          · rw [ftpDeleteFiles_no_rmdir exF dry fo p files e he''] at hr
            cases hr
      · rw [if_neg hroot] at he
        have hFor : ∀ e2 ∈ (ftpWalkForest exF exD dry lo lo2 fo rmo root p dirs).evs,
            e2.isRmdirCall = true → e2.path ≠ root := fun e2 h4 hr2 =>
          ftpWalkForest_rmdir_notroot exF exD dry lo lo2 fo rmo root p dirs e2 h4 hr2
        have hFil : ∀ e2 ∈ (ftpDeleteFiles exF dry fo p files).evs,
            e2.isRmdirCall = true → e2.path ≠ root := by
          intro e2 h4 hr2
          rw [ftpDeleteFiles_no_rmdir exF dry fo p files e2 h4] at hr2
          cases hr2
        generalize hA : (ftpWalkForest exF exD dry lo lo2 fo rmo root p dirs).evs = A
          at he hFor
        generalize hB : (ftpDeleteFiles exF dry fo p files).evs = B at he hFil
        have hsplit : ∀ tail : List Ev,
            e ∈ (Ev.listOk p (FsTree.listing (.node files dirs)) :: (A ++ B)) ++ tail →
            (∀ e2 ∈ tail, e2.isRmdirCall = true → e2.path ≠ root) →
            e.path ≠ root := by
          intro tail hmem htail
          rcases List.mem_append.1 hmem with h | h
          · rcases List.mem_cons.1 h with rfl | h2
            · cases hr
            · rcases List.mem_append.1 h2 with h3 | h3
              · exact hFor e h3 hr
              · exact hFil e h3 hr
          · exact htail e h hr
        cases hlo2 : lo2 p
        · rw [hlo2] at he
          simp only [Bool.false_eq_true, if_false] at he
          refine hsplit _ he ?_
          intro e2 he2 hr2
          rcases List.mem_singleton.1 he2 with rfl
          cases hr2
        · rw [hlo2] at he
          simp only [if_true] at he
          cases hemp : (FsTree.node (ftpDeleteFiles exF dry fo p files).files
              (ftpWalkForest exF exD dry lo lo2 fo rmo root p dirs).forest).listing.isEmpty
          · rw [hemp] at he
            simp only [Bool.false_eq_true, if_false] at he
            refine hsplit _ he ?_
            intro e2 he2 hr2
            rcases List.mem_singleton.1 he2 with rfl
            cases hr2
          · rw [hemp] at he
            simp only [if_true] at he
            cases hdry : dry
            · rw [hdry] at he
              simp only [Bool.false_eq_true, if_false] at he
              cases hrmo : rmo p
              · rw [hrmo] at he
                simp only [Bool.false_eq_true, if_false] at he
                refine hsplit _ he ?_
                intro e2 he2 hr2
                rcases List.mem_cons.1 he2 with rfl | he3
                · cases hr2
                · rcases List.mem_singleton.1 he3 with rfl
                  rw [Ev.path]
                  exact hroot
              · rw [hrmo] at he
                simp only [if_true] at he
                refine hsplit _ he ?_
                intro e2 he2 hr2
                rcases List.mem_cons.1 he2 with rfl | he3
                · cases hr2
                · rcases List.mem_cons.1 he3 with rfl | he4
                  · rw [Ev.path]
                    exact hroot
                  · rcases List.mem_singleton.1 he4 with rfl
                    cases hr2
            · rw [hdry] at he
              simp only [if_true] at he
              refine hsplit _ he ?_
              intro e2 he2 hr2
              rcases List.mem_cons.1 he2 with rfl | he3
              · cases hr2
              · rcases List.mem_singleton.1 he3 with rfl
                cases hr2
theorem ftpWalkForest_rmdir_notroot (exF exD : List String) (dry : Bool)
    (lo lo2 fo rmo : Path → Bool) (root : Path) :
    ∀ (p : Path) (f : FsForest) (e : Ev),
    e ∈ (ftpWalkForest exF exD dry lo lo2 fo rmo root p f).evs →
    e.isRmdirCall = true → e.path ≠ root
  | _, .nil => by
    intro e he
    rw [ftpWalkForest] at he
    cases he
  | p, .cons n t rest => by
    intro e he hr
    rw [ftpWalkForest] at he
    cases hm : matches_any n exD
    · rw [hm] at he
      simp only [Bool.false_eq_true, if_false] at he
      cases h1t : (ftpWalkTree exF exD dry lo lo2 fo rmo root (p ++ [n]) t).tree <;>
        rw [h1t] at he <;>
        simp only [List.mem_append] at he <;>
        rcases he with he' | he'
      · exact ftpWalkTree_rmdir_notroot exF exD dry lo lo2 fo rmo root
          (p ++ [n]) t e he' hr
      · exact ftpWalkForest_rmdir_notroot exF exD dry lo lo2 fo rmo root
          p rest e he' hr
      · exact ftpWalkTree_rmdir_notroot exF exD dry lo lo2 fo rmo root
          (p ++ [n]) t e he' hr
      · exact ftpWalkForest_rmdir_notroot exF exD dry lo lo2 fo rmo root
          p rest e he' hr
    · rw [hm] at he
      simp only [if_true] at he
      exact ftpWalkForest_rmdir_notroot exF exD dry lo lo2 fo rmo root
        p rest e he hr
end

/-- Splitting a chain-checked trace at any event yields the adjacency fact
for that event against the last event before it. -/
theorem chainOk_decomp (adj : Option Ev → Ev → Bool) :
    ∀ (pre : List Ev) (prev : Option Ev) (e : Ev) (post l : List Ev),
    l = pre ++ e :: post → chainOk adj prev l = true →
    adj (lastEv prev pre) e = true := by
  intro pre
  induction pre with
  | nil =>
    intro prev e post l hl hchain
    subst hl
    rw [List.nil_append, chainOk, Bool.and_eq_true] at hchain
    exact hchain.1
  | cons e0 pre' ih =>
    intro prev e post l hl hchain
    subst hl
    rw [List.cons_append, chainOk, Bool.and_eq_true] at hchain
    rw [lastEv_cons]
    exact ih (some e0) e post _ rfl hchain.2

/-- C6: in both backends a directory-removal call `rmdir`/`RMD` is issued
only directly after a check of that same directory that found it to have
zero children (the local emptiness probe, resp. an empty re-listing), and
never against the configured root of the run. -/
theorem claim_C6 (exF exD : List String) (dry : Bool) (uo : Path → FileOutcome)
    (ro lo lo2 fo rmo : Path → Bool) (root : Path) (t : FsTree) :
    (∀ (pre post : List Ev) (e : Ev),
      (local_cleanup_folder exF exD dry uo ro t).evs = pre ++ e :: post →
      e.isRmdirCall = true →
      e.path ≠ [] ∧ lastEv none pre = some (Ev.probe e.path true)) ∧
    (∀ (pre post : List Ev) (e : Ev),
      (ftp_cleanup_folder exF exD dry lo lo2 fo rmo root t).evs = pre ++ e :: post →
      e.isRmdirCall = true →
      e.path ≠ root ∧ lastEv none pre = some (Ev.listOk e.path [])) := by
  constructor
  · intro pre post e hl hr
    constructor
    · have hmem : e ∈ (local_cleanup_folder exF exD dry uo ro t).evs := by
        rw [hl]
        simp
      have := localWalkTree_rmdir_deep exF exD dry uo ro [] t e hmem hr
      intro hnil
      rw [hnil] at this
      simp at this
    · have hchain := localWalkTree_chain exF exD dry uo ro [] t none
      have hadj := chainOk_decomp localAdj pre none e post _ hl hchain
      cases e <;> first
        | (rw [localAdj] at hadj
           rw [Ev.path]
           exact eq_of_beq hadj)
        | cases hr
  · intro pre post e hl hr
    constructor
    · have hmem : e ∈ (ftp_cleanup_folder exF exD dry lo lo2 fo rmo root t).evs := by
        rw [hl]
        simp
      exact ftpWalkTree_rmdir_notroot exF exD dry lo lo2 fo rmo root root t
        e hmem hr
    · have hchain := ftpWalkTree_chain exF exD dry lo lo2 fo rmo root root t none
      have hadj := chainOk_decomp ftpAdj pre none e post _ hl hchain
      cases e <;> first
        | (rw [ftpAdj] at hadj
           rw [Ev.path]
           exact eq_of_beq hadj)
        | cases hr

/-- C6 witness: concrete runs on a tree with one empty directory `d`; the
local removal directly follows `probe ["d"] true`, and the remote removal
(root `["r"]`) directly follows an empty re-listing of `["r", "d"]`. -/
theorem claim_C6_witness :
    (((Ev.rmdirOk ["d"]).path ≠ [] ∧
      lastEv none [Ev.probe ["d"] true]
        = some (Ev.probe (Ev.rmdirOk ["d"]).path true))) ∧
    (((Ev.rmdirOk ["r", "d"]).path ≠ (["r"] : Path) ∧
      lastEv none
          [Ev.listOk ["r"] [("d", true)], Ev.listOk ["r", "d"] [],
            Ev.listOk ["r", "d"] []]
        = some (Ev.listOk (Ev.rmdirOk ["r", "d"]).path []))) :=
  ⟨(claim_C6 [] [] false (fun _ => FileOutcome.ok) (fun _ => true)
      (fun _ => true) (fun _ => true) (fun _ => true) (fun _ => true) [] treeC7).1
      [Ev.probe ["d"] true] [Ev.infoRmDir ["d"]] (Ev.rmdirOk ["d"])
      (by decide) (by decide),
   (claim_C6 [] [] false (fun _ => FileOutcome.ok) (fun _ => true)
      (fun _ => true) (fun _ => true) (fun _ => true) (fun _ => true) ["r"] treeC7).2
      [Ev.listOk ["r"] [("d", true)], Ev.listOk ["r", "d"] [],
        Ev.listOk ["r", "d"] []]
      [Ev.infoRmDir ["r", "d"]] (Ev.rmdirOk ["r", "d"])
      (by decide) (by decide)⟩

end LogCleanup
